import Mathlib

/-!
Shallow embedding of the xihr event-driven backtesting engine.

Conventions used throughout this development:
* `Time` is `Int`, counting seconds since 2024-04-01T00:00:00 UTC (all
  timestamps in the code are normalised to UTC, so a single integer axis
  models them; `datetime` arithmetic becomes `Int` arithmetic).
* Money amounts (`float` in the source) are modelled as `ℚ`; the claims
  under study concern control flow and exact ledger arithmetic, not
  binary rounding.
* Python strings that are only compared for equality (race ids, horse
  ids) are modelled as `Nat`; bet-type strings, whose lower-casing
  matters, are modelled as lists of Unicode code points (`List Nat`).
* Python dicts (which preserve insertion order) are modelled as
  association lists with in-place update.
-/

namespace Xihr

/-- Seconds since 2024-04-01T00:00:00Z. -/
abbrev Time := Int

/-- Money values (`float` in the source) modelled exactly. -/
abbrev Money := ℚ

/-- A Python string as a list of Unicode code points. -/
abbrev Str := List Nat

/-- Model of `str.lower` on one code point: ASCII capitals are shifted to
lower case, every other code point (including the Japanese labels used by
the alias table) is unchanged. -/
def lowerChar (c : Nat) : Nat :=
  if 65 ≤ c ∧ c ≤ 90 then c + 32 else c

/-- Model of Python `str.lower` for the alphabets appearing in the code. -/
def pyLower (s : Str) : Str := s.map lowerChar

/-- Look up a key in an insertion-ordered association list (`dict.get`). -/
def alGet {α : Type} (k : Nat) : List (Nat × α) → Option α
  | [] => none
  | (k₂, v) :: rest => if k₂ = k then some v else alGet k rest

/-- `d[k] = v` on an insertion-ordered dict: replace in place when the key
exists, append otherwise. -/
def alSet {α : Type} (k : Nat) (v : α) : List (Nat × α) → List (Nat × α)
  | [] => [(k, v)]
  | (k₂, w) :: rest => if k₂ = k then (k₂, v) :: rest else (k₂, w) :: alSet k v rest

/-- `dict.pop(k, None)`: the removed value (if any) and the remaining dict. -/
def alPop {α : Type} (k : Nat) : List (Nat × α) → Option α × List (Nat × α)
  | [] => (none, [])
  | (k₂, v) :: rest =>
      if k₂ = k then (some v, rest)
      else
        let r := alPop k rest
        (r.1, (k₂, v) :: r.2)

/-- `min` of a non-empty Python list, `none` on the empty list. -/
def listMin : List Time → Option Time
  | [] => none
  | t :: ts =>
      some (match listMin ts with
        | none => t
        | some m => min t m)

/-- Code points of the canonical label and aliases `"win"`, `"単勝"`. -/
def sWin : Str := [119, 105, 110]

/-- Code points of `"単勝"`. -/
def sTansho : Str := [21336, 21213]

/-- Code points of `"place"`. -/
def sPlace : Str := [112, 108, 97, 99, 101]

/-- Code points of `"複勝"`. -/
def sFukusho : Str := [35079, 21213]

/-- Code points of `"bracket_quinella"`. -/
def sBracketQuinella : Str := [98, 114, 97, 99, 107, 101, 116, 95, 113, 117, 105, 110, 101, 108, 108, 97]

/-- Code points of `"枠連"`. -/
def sWakuren : Str := [26528, 36899]

/-- Code points of `"quinella"`. -/
def sQuinella : Str := [113, 117, 105, 110, 101, 108, 108, 97]

/-- Code points of `"馬連"`. -/
def sUmaren : Str := [39340, 36899]

/-- Code points of `"exacta"`. -/
def sExacta : Str := [101, 120, 97, 99, 116, 97]

/-- Code points of `"馬単"`. -/
def sUmatan : Str := [39340, 21336]

/-- Code points of `"quinella_place"`. -/
def sQuinellaPlace : Str := [113, 117, 105, 110, 101, 108, 108, 97, 95, 112, 108, 97, 99, 101]

/-- Code points of `"ワイド"`. -/
def sWide_jp : Str := [12527, 12452, 12489]

/-- Code points of `"wide"`. -/
def sWide : Str := [119, 105, 100, 101]

/-- Code points of `"trifecta_box"`. -/
def sTrifectaBox : Str := [116, 114, 105, 102, 101, 99, 116, 97, 95, 98, 111, 120]

/-- Code points of `"三連複"`. -/
def sSanrenpuku : Str := [19977, 36899, 35079]

/-- Code points of `"trifecta_exact"`. -/
def sTrifectaExact : Str := [116, 114, 105, 102, 101, 99, 116, 97, 95, 101, 120, 97, 99, 116]

/-- Code points of `"三連単"`. -/
def sSanrentan : Str := [19977, 36899, 21336]

/-- `CANONICAL_BET_TYPES` from `betting_repository.py`: canonical labels
paired with their alias sets, in dict insertion order. -/
def CANONICAL_BET_TYPES : List (Str × List Str) :=
  [(sWin, [sWin, sTansho]),
   (sPlace, [sPlace, sFukusho]),
   (sBracketQuinella, [sBracketQuinella, sWakuren]),
   (sQuinella, [sQuinella, sUmaren]),
   (sExacta, [sExacta, sUmatan]),
   (sQuinellaPlace, [sQuinellaPlace, sWide_jp, sWide]),
   (sTrifectaBox, [sTrifectaBox, sSanrenpuku]),
   (sTrifectaExact, [sTrifectaExact, sSanrentan])]

/-- `ORDER_SENSITIVE` from `betting_repository.py`. -/
def ORDER_SENSITIVE : List Str := [sExacta, sTrifectaExact]

/-- `canonical_bet_type`: lower-case the input, return the first canonical
label whose (lower-cased) alias set contains it, else the lower-cased
input itself. -/
def canonical_bet_type (bet_type : Str) : Str :=
  let normalized := pyLower bet_type
  match CANONICAL_BET_TYPES.find? (fun e => (e.2.map pyLower).contains normalized) with
  | some e => e.1
  | none => normalized

/-- A horse entry of a race card (`HorseEntry` in `data/models.py`); only
the identifier takes part in the operations the claims touch
(`Race.get_horse` membership tests), so the descriptive fields
(name, jockey, trainer, draw, odds) are not carried. -/
structure HorseEntry where
  horse_id : Nat
  deriving DecidableEq, Repr

/-- A race (`Race` in `data/models.py`); `date` is the scheduled start.
Descriptive fields (course, distance, ground, weather) take no part in
any modelled operation and are omitted. -/
structure Race where
  race_id : Nat
  date : Time
  horses : List HorseEntry
  deriving DecidableEq, Repr

/-- `Race.get_horse`: the first entry with the requested id, if any. -/
def Race.get_horse (r : Race) (horse_id : Nat) : Option HorseEntry :=
  r.horses.find? (fun h => h.horse_id = horse_id)

/-- A settled payoff record (`Payoff` in `data/models.py`). -/
structure Payoff where
  race_id : Nat
  bet_type : Str
  combination : List Nat
  odds : Money
  payout : Money
  deriving DecidableEq, Repr

/-- Lifecycle status of a position (the `status` string of `BetPosition`). -/
inductive Status where
  | open
  | settled
  | submitted
  deriving DecidableEq, Repr

/-- A position held by the portfolio (`BetPosition` in `portfolio.py`).
Bet identifiers are the numeric counter behind the `bet-<n>` strings. -/
structure BetPosition where
  bet_id : Nat
  race_id : Nat
  bet_type : Str
  combination : List Nat
  stake : Money
  placed_at : Time
  status : Status
  payout : Money
  deriving DecidableEq, Repr

/-- `_combinations_match` from `betting_repository.py`: per-canonical-type
combination matching rule.  Python `set(a) == set(b)` is modelled as
mutual membership. -/
def combinationsMatch (bet_combo result_combo : List Nat) (canonical_type : Str) : Bool :=
  if ORDER_SENSITIVE.contains canonical_type then
    bet_combo = result_combo
  else if canonical_type = sWin then
    !bet_combo.isEmpty && !result_combo.isEmpty && bet_combo.head? = result_combo.head?
  else if canonical_type = sPlace then
    bet_combo.all (fun horse => result_combo.contains horse)
  else if canonical_type = sQuinella ∨ canonical_type = sQuinellaPlace ∨
          canonical_type = sBracketQuinella ∨ canonical_type = sTrifectaBox then
    bet_combo.all (fun h => result_combo.contains h) &&
      result_combo.all (fun h => bet_combo.contains h)
  else
    bet_combo.all (fun h => result_combo.contains h) &&
      result_combo.all (fun h => bet_combo.contains h)

/-- `_calculate_payout`: stake times the odds of the first payoff with the
same canonical type and a matching combination, else 0. -/
def calculatePayout (position : BetPosition) (payoffs : List Payoff) : Money :=
  let canonical := canonical_bet_type position.bet_type
  match payoffs.find? (fun payoff =>
      canonical_bet_type payoff.bet_type = canonical &&
        combinationsMatch position.combination payoff.combination canonical) with
  | some payoff => position.stake * payoff.odds
  | none => 0

/-- Failure kinds raised by the portfolio and betting repository
(`ValueError` / `KeyError` messages in the source). -/
inductive BetErr where
  | invalidStake
  | insufficientCash
  | unknownBet
  | alreadySettled
  | unknownPendingBet
  | fuelExhausted
  deriving DecidableEq, Repr

/-- The cash ledger and position store (`Portfolio` in `portfolio.py`);
`positions` is the insertion-ordered dict keyed by bet id. -/
structure Portfolio where
  initial_bankroll : Money
  cash : Money
  positions : List (Nat × BetPosition)
  deriving DecidableEq, Repr

/-- `Portfolio.create`. -/
def Portfolio.create (bankroll : Money) : Portfolio :=
  { initial_bankroll := bankroll, cash := bankroll, positions := [] }

/-- `Portfolio.place_bet`: validate the stake, deduct cash, record an open
position. -/
def Portfolio.placeBet (p : Portfolio) (bet_id race_id : Nat) (bet_type : Str)
    (combination : List Nat) (stake : Money) (placed_at : Time) :
    Except BetErr (BetPosition × Portfolio) :=
  if stake ≤ 0 then .error .invalidStake
  else if p.cash < stake then .error .insufficientCash
  else
    let position : BetPosition :=
      { bet_id := bet_id, race_id := race_id, bet_type := bet_type,
        combination := combination, stake := stake, placed_at := placed_at,
        status := .open, payout := 0 }
    .ok (position, { p with cash := p.cash - stake,
                            positions := alSet bet_id position p.positions })

/-- `Portfolio.settle_bet`: mark an open position settled, credit the
payout. -/
def Portfolio.settleBet (p : Portfolio) (bet_id : Nat) (payout : Money) :
    Except BetErr (BetPosition × Portfolio) :=
  match alGet bet_id p.positions with
  | none => .error .unknownBet
  | some position =>
      if position.status ≠ .open then .error .alreadySettled
      else
        let position₂ := { position with status := .settled, payout := payout }
        .ok (position₂, { p with cash := p.cash + payout,
                                 positions := alSet bet_id position₂ p.positions })

/-- `Portfolio.open_positions`. -/
def Portfolio.openPositions (p : Portfolio) : List BetPosition :=
  (p.positions.map (·.2)).filter (fun pos => pos.status = .open)

/-- `Portfolio.settled_positions`. -/
def Portfolio.settledPositions (p : Portfolio) : List BetPosition :=
  (p.positions.map (·.2)).filter (fun pos => pos.status = .settled)

/-- The static simulation data source (`SimulationDataRepository`): its
validated race list (distinct race ids), payoff records, and the payoff
publication delay (default 10 minutes). -/
structure SimDataRepo where
  races : List Race
  payoffs : List Payoff
  payoff_delay : Time
  deriving DecidableEq, Repr

/-- `SimulationDataRepository.get_race`. -/
def SimDataRepo.getRace (d : SimDataRepo) (race_id : Nat) : Option Race :=
  d.races.find? (fun r => r.race_id = race_id)

/-- `SimulationDataRepository.get_payoffs`: the payoff records of that race in
insertion order. -/
def SimDataRepo.getPayoffs (d : SimDataRepo) (race_id : Nat) : List Payoff :=
  d.payoffs.filter (fun p => p.race_id = race_id)

/-- The `{starts, wins, win_rate}` triple of `get_historical`. -/
structure HistoricalStat where
  starts : Nat
  wins : Nat
  win_rate : Money
  deriving DecidableEq, Repr

/-- `SimulationDataRepository.get_historical`: `starts` counts the races
listing the horse, `wins` counts the win-type payoff records (raw
`bet_type` in `{win, 単勝}`) whose combination contains the horse. -/
def SimDataRepo.getHistorical (d : SimDataRepo) (horse_id : Nat) : HistoricalStat :=
  let starts := (d.races.filter (fun r => (r.get_horse horse_id).isSome)).length
  let wins := (d.payoffs.filter (fun p =>
      p.combination.contains horse_id && (p.bet_type = sWin ∨ p.bet_type = sTansho))).length
  if starts = 0 then
    { starts := 0, wins := 0, win_rate := 0 }
  else
    { starts := starts, wins := wins, win_rate := (wins : Money) / (starts : Money) }

/-- Data kinds understood by `get_publish_time` and `DataEvent`. -/
inductive DataKind where
  | race
  | payoff
  deriving DecidableEq, Repr

/-- `SimulationDataRepository.get_publish_time`: the start time of the race for
`race` data, start plus the configured delay for `payoff` data, `none`
for an unknown race. -/
def SimDataRepo.getPublishTime (d : SimDataRepo) (race_id : Nat) (kind : DataKind) :
    Option Time :=
  match d.getRace race_id with
  | none => none
  | some race =>
      match kind with
      | .race => some race.date
      | .payoff => some (race.date + d.payoff_delay)

/-- The diagnostic message carried by a rejected confirmation.  The source
interpolates numbers into the two fixed texts; only the kind of message is
modelled. -/
inductive RejectMsg where
  | stakeMustBePositive
  | insufficientCash
  deriving DecidableEq, Repr

/-- A pending bet awaiting broker confirmation (`PendingBet`). -/
structure PendingBet where
  bet_id : Nat
  race_id : Nat
  bet_type : Str
  combination : List Nat
  stake : Money
  placed_at : Time
  deriving DecidableEq, Repr

/-- `BetConfirmationEvent` (`events.py`): the reply of the broker to a request. -/
structure BetConf where
  bet_id : Nat
  race_id : Nat
  bet_type : Str
  combination : List Nat
  stake : Money
  placed_at : Time
  accepted : Bool
  message : Option RejectMsg
  position : Option BetPosition
  deriving DecidableEq, Repr

/-- `SimulationBettingRepository` state: the backing portfolio, the bet-id
counter (`itertools.count(1)`), the `race_id → open positions` map
populated at confirmation, and the pending-confirmation dict. -/
structure SimBettingRepo where
  portfolio : Portfolio
  counter : Nat
  pending : List (Nat × List BetPosition)
  pending_confirmations : List (Nat × PendingBet)
  deriving DecidableEq, Repr

/-- A fresh repository over `portfolio` (counter starts at 1). -/
def SimBettingRepo.create (portfolio : Portfolio) : SimBettingRepo :=
  { portfolio := portfolio, counter := 1, pending := [], pending_confirmations := [] }

/-- `_available_cash`: portfolio cash minus the stakes reserved by
pending confirmations. -/
def SimBettingRepo.availableCash (b : SimBettingRepo) : Money :=
  b.portfolio.cash - ((b.pending_confirmations.map (fun e => e.2.stake)).sum)

/-- `SimulationBettingRepository.place_bet`: validate the stake against
available cash; on success reserve a pending bet; always return a
confirmation event (never an exception). -/
def SimBettingRepo.placeBet (b : SimBettingRepo) (race_id : Nat)
    (horse_ids : List Nat) (stake : Money) (bet_type : Str) (placed_at : Time) :
    BetConf × SimBettingRepo :=
  let combination := horse_ids
  if stake ≤ 0 then
    ({ bet_id := b.counter, race_id := race_id, bet_type := bet_type,
       combination := combination, stake := stake, placed_at := placed_at,
       accepted := false, message := some .stakeMustBePositive, position := none },
     { b with counter := b.counter + 1 })
  else if b.availableCash < stake then
    ({ bet_id := b.counter, race_id := race_id, bet_type := bet_type,
       combination := combination, stake := stake, placed_at := placed_at,
       accepted := false, message := some .insufficientCash, position := none },
     { b with counter := b.counter + 1 })
  else
    let bet_id := b.counter
    let pendingBet : PendingBet :=
      { bet_id := bet_id, race_id := race_id, bet_type := bet_type,
        combination := combination, stake := stake, placed_at := placed_at }
    ({ bet_id := bet_id, race_id := race_id, bet_type := bet_type,
       combination := combination, stake := stake, placed_at := placed_at,
       accepted := true, message := none, position := none },
     { b with counter := b.counter + 1,
              pending_confirmations :=
                alSet bet_id pendingBet b.pending_confirmations })

/-- `SimulationBettingRepository.confirm_bet`: pop the pending entry, move
the stake into the portfolio as an open position, and track the position
for settlement under its race id. -/
def SimBettingRepo.confirmBet (b : SimBettingRepo) (event : BetConf) :
    Except BetErr (BetPosition × SimBettingRepo) :=
  match alPop event.bet_id b.pending_confirmations with
  | (none, _) => .error .unknownPendingBet
  | (some pendingBet, remaining) =>
      match b.portfolio.placeBet pendingBet.bet_id pendingBet.race_id
          pendingBet.bet_type pendingBet.combination pendingBet.stake
          pendingBet.placed_at with
      | .error e => .error e
      | .ok (position, portfolio₂) =>
          let prior := (alGet position.race_id b.pending).getD []
          .ok (position,
            { b with portfolio := portfolio₂,
                     pending_confirmations := remaining,
                     pending := alSet position.race_id (prior ++ [position]) b.pending })

/-- Settle one list of positions in order against the payoffs of the race,
threading the portfolio (the loop body of `settle_race`). -/
def settleList (portfolio : Portfolio) (payoffs : List Payoff) :
    List BetPosition → Except BetErr (List BetPosition × Portfolio)
  | [] => .ok ([], portfolio)
  | position :: rest =>
      match portfolio.settleBet position.bet_id (calculatePayout position payoffs) with
      | .error e => .error e
      | .ok (settledPos, portfolio₂) =>
          match settleList portfolio₂ payoffs rest with
          | .error e => .error e
          | .ok (settledRest, portfolio₃) => .ok (settledPos :: settledRest, portfolio₃)

/-- `SimulationBettingRepository.settle_race`: pop the tracked positions
of the race and settle each against the payoff records of the repository. -/
def SimBettingRepo.settleRace (b : SimBettingRepo) (dataRepo : SimDataRepo)
    (race_id : Nat) : Except BetErr (List BetPosition × SimBettingRepo) :=
  let payoffs := dataRepo.getPayoffs race_id
  let popped := alPop race_id b.pending
  let toSettle := popped.1.getD []
  match settleList b.portfolio payoffs toSettle with
  | .error e => .error e
  | .ok (settled, portfolio₂) =>
      .ok (settled, { b with portfolio := portfolio₂, pending := popped.2 })

/-- The event variants of the engine (`events.py`).  `betRequest.placed_at` is
already filled here because `Engine.submit_bet` fills it before any event
reaches the queue. -/
inductive Event where
  | time (name : Nat) (scheduled_for : Time)
  | data (kind : DataKind) (race : Race) (available_at : Time) (payoffs : List Payoff)
  | betRequest (race_id : Nat) (bet_type : Str) (combination : List Nat)
      (stake : Money) (placed_at : Time)
  | betConfirmation (conf : BetConf)
  | result (race_id : Nat) (settled_at : Time)
  deriving DecidableEq, Repr

/-- `_event_time`: the scheduling timestamp of an event. -/
def eventTime : Event → Time
  | .time _ scheduled_for => scheduled_for
  | .data _ _ available_at _ => available_at
  | .betRequest _ _ _ _ placed_at => placed_at
  | .betConfirmation conf => conf.placed_at
  | .result _ settled_at => settled_at

/-- Whether an event is a `TimeEvent` (the `isinstance` test in
`_enqueue` and `_schedule_next_tick`). -/
def Event.isTime : Event → Bool
  | .time _ _ => true
  | _ => false

/-- One queue cell: `(timestamp, order_key, event)`. -/
abbrev QEntry := Time × Int × Event

/-- Lexicographic comparison of `(timestamp, order_key)`, the order the
heap pops in (order keys are distinct, so the event never takes part). -/
def keyLe (a b : QEntry) : Bool := a.1 < b.1 ∨ (a.1 = b.1 ∧ a.2.1 ≤ b.2.1)

/-- Extract the heap minimum by `(timestamp, order_key)` together with the
remaining entries; models `heapq.heappop` on the multiset of entries. -/
def popMin : List QEntry → Option (QEntry × List QEntry)
  | [] => none
  | e :: rest =>
      match popMin rest with
      | none => some (e, [])
      | some (m, others) =>
          if keyLe e m then some (e, rest) else some (m, e :: others)

/-- The queue with its two order counters: `counter` ascends from 0 for
regular insertions, `front_counter` descends from −1 for front
insertions. -/
structure EventQueue where
  entries : List QEntry
  counter : Int
  front_counter : Int
  deriving DecidableEq, Repr

/-- The queue state at the start of a run. -/
def EventQueue.empty : EventQueue :=
  { entries := [], counter := 0, front_counter := -1 }

/-- `Engine._enqueue`: `TimeEvent`s draw from the front counter, every
other event from the back counter. -/
def EventQueue.enqueue (q : EventQueue) (event : Event) : EventQueue :=
  if event.isTime then
    { q with entries := (eventTime event, q.front_counter, event) :: q.entries,
             front_counter := q.front_counter - 1 }
  else
    { q with entries := (eventTime event, q.counter, event) :: q.entries,
             counter := q.counter + 1 }

/-- `Engine._enqueue_front`: always draw from the front counter. -/
def EventQueue.enqueueFront (q : EventQueue) (event : Event) : EventQueue :=
  { q with entries := (eventTime event, q.front_counter, event) :: q.entries,
           front_counter := q.front_counter - 1 }

/-- Repeatedly pop the queue minimum; the dequeue order of a set of queue
entries (fuel is the length, so the drain is complete). -/
def drainE : Nat → List QEntry → List QEntry
  | 0, _ => []
  | fuel + 1, entries =>
      match popMin entries with
      | none => []
      | some (e, rest) => e :: drainE fuel rest

/-- The dequeue order of a queue state. -/
def EventQueue.drain (q : EventQueue) : List Event :=
  (drainE q.entries.length q.entries).map (fun e => e.2.2)

/-- A parsed five-field cron expression; `none` stands for `*`. -/
structure CronExpr where
  minute : Option Nat
  hour : Option Nat
  day : Option Nat
  month : Option Nat
  weekday : Option Nat
  deriving DecidableEq, Repr

/-- `"0 0 * * *"`. -/
def cronMidnight : CronExpr :=
  { minute := some 0, hour := some 0, day := none, month := none, weekday := none }

/-- `replace(second=0, microsecond=0)`: floor to the containing minute. -/
def floorMinute (t : Time) : Time := t - t.emod 60

/-- Minute-of-hour of a timestamp (the epoch is midnight-aligned). -/
def minuteOf (t : Time) : Int := (t.emod 3600) / 60

/-- Hour-of-day of a timestamp. -/
def hourOf (t : Time) : Int := (t.emod 86400) / 3600

/-- Whole days since the epoch 2024-04-01 (floor). -/
def dayIndex (t : Time) : Int := t.fdiv 86400

/-- Day-of-month; the embedding covers March and April 2024, the window
every scenario and claim lives in (March has 31 days). -/
def dayOfMonth (t : Time) : Int :=
  if 0 ≤ dayIndex t then dayIndex t + 1 else dayIndex t + 32

/-- Month number over the same March/April 2024 window. -/
def monthOf (t : Time) : Int := if 0 ≤ dayIndex t then 4 else 3

/-- Python `weekday()` (Monday = 0); 2024-04-01 was a Monday. -/
def weekdayOf (t : Time) : Int := (dayIndex t).emod 7

/-- Whether a minute-aligned candidate satisfies every set cron field
(the filter chain of `_FallbackCroniter.get_next`). -/
def cronMatches (e : CronExpr) (t : Time) : Bool :=
  (match e.minute with | none => true | some m => minuteOf t = m) &&
  (match e.hour with | none => true | some h => hourOf t = h) &&
  (match e.day with | none => true | some d => dayOfMonth t = d) &&
  (match e.month with | none => true | some m => monthOf t = m) &&
  (match e.weekday with | none => true | some w => weekdayOf t = w)

/-- The candidate-stepping loop of `_FallbackCroniter.get_next`: walk
minute boundaries until one matches; fuel bounds the walk (every use in
this development reaches a match well within it). -/
def cronSearch (e : CronExpr) : Nat → Time → Option Time
  | 0, _ => none
  | fuel + 1, current =>
      let candidate := floorMinute (current + 60)
      if cronMatches e candidate then some candidate
      else cronSearch e fuel candidate

/-- Fuel ample for the scenarios in this file (a week of minutes). -/
def cronFuel : Nat := 20000

/-- `_FallbackCroniter.get_next`: the next matching instant strictly after
the current position of the iterator, which then becomes the new position. -/
def cronGetNext (e : CronExpr) (current : Time) : Option Time :=
  cronSearch e cronFuel current

/-- The three scheduling modes of a `ScheduleEntry`. -/
inductive SchedMode where
  | absolute (time_of_day : Time)
  | relative (offset : Time)
  | cron (expr : CronExpr)
  deriving DecidableEq, Repr

/-- A scheduled callback (`ScheduleEntry`); `cb` identifies the callback,
`cron_iter` is the cached iterator position (`_current`). -/
structure ScheduleEntry where
  cb : Nat
  mode : SchedMode
  next_due : Option Time
  relative_last_index : Int
  relative_target_index : Int
  cron_iter : Option Time
  deriving DecidableEq, Repr

/-- A freshly registered entry (`reset_for_run` state). -/
def ScheduleEntry.mk0 (cb : Nat) (mode : SchedMode) : ScheduleEntry :=
  { cb := cb, mode := mode, next_due := none,
    relative_last_index := -1, relative_target_index := -1, cron_iter := none }

/-- `_next_absolute`: the next instant at the time-of-day of the entry at or
after `current` (equality allowed only on first preparation). -/
def nextAbsolute (time_of_day current : Time) (allow_equal : Bool) : Time :=
  let candidate := (current - current.emod 86400) + time_of_day
  if candidate < current ∨ (candidate = current ∧ !allow_equal) then
    candidate + 86400
  else candidate

/-- The race walk of `_compute_relative_next`: scanning the given races
(the suffix from the start index), the first race whose `date + offset`
is at or after `current`, as `(index, trigger_time)`; `idx` carries the
absolute index of the scan head. -/
def relativeSearch (offset current : Time) : List Race → Nat → Option (Nat × Time)
  | [], _ => none
  | race :: rest, idx =>
      if current ≤ race.date + offset then some (idx, race.date + offset)
      else relativeSearch offset current rest (idx + 1)

/-- Clamp of `prepare`/`advance`: an activation beyond `timeline_end`
deactivates the entry. -/
def clampTimeline (timeline_end : Time) (entry : ScheduleEntry) : ScheduleEntry :=
  match entry.next_due with
  | some d => if timeline_end < d then { entry with next_due := none } else entry
  | none => entry

/-- `_compute_relative_next`: walk the race pointer forward to the next
race whose `date + offset` has not passed. -/
def computeRelativeNext (entry : ScheduleEntry) (offset current : Time)
    (races : List Race) : ScheduleEntry :=
  let start := (entry.relative_last_index + 1).toNat
  match relativeSearch offset current (races.drop start) start with
  | some (idx, trigger) =>
      { entry with relative_target_index := (idx : Int), next_due := some trigger }
  | none =>
      { entry with next_due := none, relative_target_index := (races.length : Int) }

/-- `ScheduleEntry.prepare`: compute the first due time for a run (absolute
mode allows firing exactly at `current`; cron seeds its iterator at
`current - tick` floored to the minute). -/
def ScheduleEntry.prepare (entry : ScheduleEntry) (current : Time) (races : List Race)
    (tick timeline_end : Time) : Except BetErr ScheduleEntry :=
  match entry.mode with
  | .absolute time_of_day =>
      .ok (clampTimeline timeline_end
        { entry with next_due := some (nextAbsolute time_of_day current true) })
  | .relative offset =>
      .ok (clampTimeline timeline_end
        (computeRelativeNext { entry with relative_last_index := -1 } offset current races))
  | .cron e =>
      let base := current - tick
      match cronGetNext e (floorMinute base) with
      | none => .error .fuelExhausted
      | some nxt =>
          .ok (clampTimeline timeline_end
            { entry with cron_iter := some nxt, next_due := some nxt })

/-- `ScheduleEntry.advance`: compute the next activation after the entry
fired (absolute mode now requires a strictly later instant). -/
def ScheduleEntry.advance (entry : ScheduleEntry) (current : Time) (races : List Race)
    (_tick timeline_end : Time) : Except BetErr ScheduleEntry :=
  match entry.mode with
  | .absolute time_of_day =>
      .ok (clampTimeline timeline_end
        { entry with next_due := some (nextAbsolute time_of_day current false) })
  | .relative offset =>
      .ok (clampTimeline timeline_end
        (computeRelativeNext
          { entry with relative_last_index := entry.relative_target_index }
          offset current races))
  | .cron e =>
      let iter := entry.cron_iter.getD (floorMinute current)
      match cronGetNext e iter with
      | none => .error .fuelExhausted
      | some nxt =>
          .ok (clampTimeline timeline_end
            { entry with cron_iter := some nxt, next_due := some nxt })

/-- A bet submission performed by a strategy hook
(`BaseStrategy.place_bet`); `placed_at = none` means the hook did not
pass an explicit timestamp, so the engine clock is used. -/
structure Action where
  race_id : Nat
  horse_ids : List Nat
  stake : Money
  bet_type : Str
  placed_at : Option Time
  deriving DecidableEq, Repr

/-- A strategy as pure transition functions over its own state `σ`; every
hook receives the engine clock value it could read via
`engine.clock.now()`, and returns the bets it submits.  `callback` models
a scheduled callback body (the scenario callbacks record the clock). -/
structure Strategy (σ : Type) where
  on_start : σ → Time → σ × List Action
  on_time : σ → Time → σ × List Action
  on_data : σ → DataKind → Race → Time → List Payoff → σ × List Action
  on_bet : σ → BetConf → Time → σ × List Action
  on_result : σ → Nat → Time → σ × List Action
  callback : σ → Nat → Time → σ

/-- The per-run state of the engine (`Engine` fields plus the bound strategy);
`popped` is a ghost log of `(timestamp, event)` in dispatch order used to
state ordering claims. -/
structure EngineState (σ : Type) where
  queue : EventQueue
  next_tick_time : Option Time
  races : List Race
  timeline_end : Time
  schedules : List ScheduleEntry
  clock : Time
  bet : SimBettingRepo
  dataRepo : SimDataRepo
  tick_interval : Time
  strat : σ
  popped : List (Time × Event)

/-- The name of engine ticks (`"tick"`). -/
def tickName : Nat := 0

/-- `BaseStrategy.place_bet` followed by `Engine.submit_bet`: fill
`placed_at` with the clock when absent and enqueue the request on the
regular channel. -/
def submitAction {σ : Type} (st : EngineState σ) (a : Action) : EngineState σ :=
  let placed := a.placed_at.getD st.clock
  let event := Event.betRequest a.race_id a.bet_type a.horse_ids a.stake placed
  { st with queue := st.queue.enqueue event }

/-- Enqueue every bet a hook submitted, in submission order. -/
def applyActions {σ : Type} (st : EngineState σ) (acts : List Action) : EngineState σ :=
  acts.foldl submitAction st

/-- The due-loop of `_run_due_schedules` for one entry: fire and advance
while `next_due ≤ now` (fuel bounds the loop; ample for every scenario). -/
def runEntryDue {σ : Type} (strat : Strategy σ) (now : Time) (races : List Race)
    (tick timeline_end : Time) :
    Nat → ScheduleEntry → σ → Except BetErr (ScheduleEntry × σ)
  | 0, _, _ => .error .fuelExhausted
  | fuel + 1, entry, s =>
      match entry.next_due with
      | some d =>
          if d ≤ now then
            let s₂ := strat.callback s entry.cb now
            match entry.advance now races tick timeline_end with
            | .error e => .error e
            | .ok entry₂ => runEntryDue strat now races tick timeline_end fuel entry₂ s₂
          else .ok (entry, s)
      | none => .ok (entry, s)

/-- `_run_due_schedules`: process each entry of the schedule table in
order. -/
def runDueList {σ : Type} (strat : Strategy σ) (now : Time) (races : List Race)
    (tick timeline_end : Time) :
    List ScheduleEntry → σ → Except BetErr (List ScheduleEntry × σ)
  | [], s => .ok ([], s)
  | entry :: rest, s =>
      match runEntryDue strat now races tick timeline_end cronFuel entry s with
      | .error e => .error e
      | .ok (entry₂, s₂) =>
          match runDueList strat now races tick timeline_end rest s₂ with
          | .error e => .error e
          | .ok (rest₂, s₃) => .ok (entry₂ :: rest₂, s₃)

/-- `_schedule_next_tick` for the simulated clock: wake at the earliest
future non-tick event or schedule activation, never beyond
`timeline_end`, and never later than an already scheduled tick. -/
def scheduleNextTick {σ : Type} (st : EngineState σ) : EngineState σ :=
  let has_non_time := st.queue.entries.any (fun e => !e.2.2.isTime)
  let has_schedule := st.schedules.any (fun e => e.next_due.isSome)
  if !has_non_time && !has_schedule then st
  else
    let now := st.clock
    let candidate_times :=
      (st.queue.entries.filter (fun e => decide (now < e.1) && !e.2.2.isTime)).map
          (fun e => e.1) ++
        st.schedules.filterMap (fun e =>
          match e.next_due with
          | some d => if now < d then some d else none
          | none => none)
    match listMin candidate_times with
    | none => st
    | some next_tick_time =>
        if st.timeline_end < next_tick_time then st
        else
          match st.next_tick_time with
          | some nt =>
              if nt ≤ next_tick_time then st
              else { st with next_tick_time := some next_tick_time,
                             queue := st.queue.enqueue (.time tickName next_tick_time) }
          | none => { st with next_tick_time := some next_tick_time,
                              queue := st.queue.enqueue (.time tickName next_tick_time) }

/-- The `TimeEvent` branch of `_process_events`. -/
def handleTime {σ : Type} (strat : Strategy σ) (t : Time) (st : EngineState σ) :
    Except BetErr (EngineState σ) :=
  let st := { st with next_tick_time := none, clock := max st.clock t }
  let hook := strat.on_time st.strat t
  let st := applyActions { st with strat := hook.1 } hook.2
  match runDueList strat t st.races st.tick_interval st.timeline_end st.schedules
      st.strat with
  | .error e => .error e
  | .ok (schedules₂, s₂) =>
      .ok (scheduleNextTick { st with schedules := schedules₂, strat := s₂ })

/-- The `DataEvent` branch: deliver the data (payoff events carry the
payoff records of the repository), then for payoff events settle the race and
emit a `ResultEvent` when anything settled. -/
def handleData {σ : Type} (strat : Strategy σ) (kind : DataKind) (race : Race)
    (payload : List Payoff) (t : Time) (st : EngineState σ) :
    Except BetErr (EngineState σ) :=
  let st := { st with clock := max st.clock t }
  let payoffs := if kind = .payoff then st.dataRepo.getPayoffs race.race_id else payload
  let hook := strat.on_data st.strat kind race t payoffs
  let st := applyActions { st with strat := hook.1 } hook.2
  match kind with
  | .race => .ok st
  | .payoff =>
      match st.bet.settleRace st.dataRepo race.race_id with
      | .error e => .error e
      | .ok (settled, bet₂) =>
          let st := { st with bet := bet₂ }
          if settled.isEmpty then .ok st
          else .ok { st with queue := st.queue.enqueue (.result race.race_id st.clock) }

/-- The `BetRequestEvent` branch: ask the betting repository to validate
the request and front-enqueue the returned confirmation. -/
def handleBetRequest {σ : Type} (race_id : Nat) (bet_type : Str)
    (combination : List Nat) (stake : Money) (t : Time) (st : EngineState σ) :
    EngineState σ :=
  let st := { st with clock := max st.clock t }
  let r := st.bet.placeBet race_id combination stake bet_type t
  { st with bet := r.2,
            queue := st.queue.enqueueFront (.betConfirmation r.1) }

/-- The `BetConfirmationEvent` branch: on acceptance confirm the bet,
attach the position, settle the race and emit a `ResultEvent` when
anything settled; always deliver `on_bet`. -/
def handleBetConf {σ : Type} (strat : Strategy σ) (conf : BetConf) (t : Time)
    (st : EngineState σ) : Except BetErr (EngineState σ) :=
  let conf := { conf with placed_at := t }
  let st := { st with clock := max st.clock t }
  if conf.accepted then
    match st.bet.confirmBet conf with
    | .error e => .error e
    | .ok (position, bet₂) =>
        let conf := { conf with position := some position }
        match bet₂.settleRace st.dataRepo conf.race_id with
        | .error e => .error e
        | .ok (settled, bet₃) =>
            let st := { st with bet := bet₃ }
            let st :=
              if settled.isEmpty then st
              else { st with queue := st.queue.enqueue (.result conf.race_id st.clock) }
            let hook := strat.on_bet st.strat conf t
            .ok (applyActions { st with strat := hook.1 } hook.2)
  else
    let hook := strat.on_bet st.strat conf t
    .ok (applyActions { st with strat := hook.1 } hook.2)

/-- The `ResultEvent` branch. -/
def handleResult {σ : Type} (strat : Strategy σ) (race_id : Nat) (t : Time)
    (st : EngineState σ) : EngineState σ :=
  let st := { st with clock := max st.clock t }
  let hook := strat.on_result st.strat race_id t
  applyActions { st with strat := hook.1 } hook.2

/-- Dispatch one popped event (the `isinstance` chain of
`_process_events`). -/
def handleEvent {σ : Type} (strat : Strategy σ) (event : Event) (t : Time)
    (st : EngineState σ) : Except BetErr (EngineState σ) :=
  match event with
  | .time _ _ => handleTime strat t st
  | .data kind race _ payload => handleData strat kind race payload t st
  | .betRequest race_id bet_type combination stake _ =>
      .ok (handleBetRequest race_id bet_type combination stake t st)
  | .betConfirmation conf => handleBetConf strat conf t st
  | .result race_id _ => .ok (handleResult strat race_id t st)

/-- One iteration of the `_process_events` loop: pop the heap minimum,
log it, dispatch it; `none` when the queue has drained. -/
def engineStep {σ : Type} (strat : Strategy σ) (st : EngineState σ) :
    Except BetErr (Option (EngineState σ)) :=
  match popMin st.queue.entries with
  | none => .ok none
  | some (entry, rest) =>
      let t := entry.1
      let event := entry.2.2
      let st := { st with queue := { st.queue with entries := rest },
                          popped := st.popped ++ [(t, event)] }
      match handleEvent strat event t st with
      | .error e => .error e
      | .ok st₂ => .ok (some st₂)

/-- Run at most `n` dispatches; stops early when the queue drains. -/
def engineSteps {σ : Type} (strat : Strategy σ) : Nat → EngineState σ →
    Except BetErr (EngineState σ)
  | 0, st => .ok st
  | n + 1, st =>
      match engineStep strat st with
      | .error e => .error e
      | .ok none => .ok st
      | .ok (some st₂) => engineSteps strat n st₂

/-- Stable insertion of a race into a date-sorted list (equal dates keep
their original relative order). -/
def insertByDate (race : Race) : List Race → List Race
  | [] => [race]
  | r :: rest =>
      if r.date ≤ race.date then r :: insertByDate race rest
      else race :: r :: rest

/-- `_sorted_races`: the stable Python `sorted` by `race.date`. -/
def sortByDate (races : List Race) : List Race :=
  races.foldl (fun acc r => insertByDate r acc) []

/-- `max` of a list of times with a floor value. -/
def listMaxD (floor : Time) (ts : List Time) : Time :=
  ts.foldl max floor

/-- `Engine._compute_timeline_end`. -/
def computeTimelineEnd {σ : Type} (st : EngineState σ) : Time :=
  match st.races with
  | [] => st.clock
  | r :: rest =>
      let last_race_time := listMaxD r.date (rest.map (fun x => x.date))
      let max_offset := st.schedules.foldl
        (fun acc entry =>
          match entry.mode with
          | .relative offset => if 0 < offset then max acc offset else acc
          | _ => acc) 0
      let te := last_race_time + max_offset
      let payoff_times := st.races.filterMap
        (fun race => st.dataRepo.getPublishTime race.race_id .payoff)
      let te := listMaxD te payoff_times
      max te (last_race_time + 86400)

/-- Seed the queue with the `DataEvent`s of the run (the race loop of
`Engine.run`): race data at `max(publish, now)`, payoff data at the
payoff publish time clamped below by the race availability and `now`. -/
def seedRace {σ : Type} (now : Time) (st : EngineState σ) (race : Race) :
    EngineState σ :=
  let publish := st.dataRepo.getPublishTime race.race_id .race
  let available_at₀ := publish.getD race.date
  let available_at := if available_at₀ < now then now else available_at₀
  let st := { st with queue := st.queue.enqueue (.data .race race available_at []) }
  match st.dataRepo.getPublishTime race.race_id .payoff with
  | none => st
  | some payoff_publish =>
      let publish_time₀ := if payoff_publish < available_at then available_at
                           else payoff_publish
      let publish_time := if publish_time₀ < now then now else publish_time₀
      { st with queue := st.queue.enqueue (.data .payoff race publish_time []) }

/-- `Engine.run` up to the start of the event pump: reset the queue and
counters, sort the races, reset the simulated clock to the first race
(`now0` when there are none), deliver `on_start`, compute the timeline
end, prepare the schedule table, seed data events, and enqueue the
initial tick. -/
def initRun {σ : Type} (strat : Strategy σ) (s0 : σ) (dataRepo : SimDataRepo)
    (bankroll : Money) (scheds : List (Nat × SchedMode)) (tick_interval : Time)
    (now0 : Time) : Except BetErr (EngineState σ) :=
  let races := sortByDate dataRepo.races
  let start := match races.head? with
    | some r => r.date
    | none => now0
  let st : EngineState σ :=
    { queue := EventQueue.empty, next_tick_time := none, races := races,
      timeline_end := start, schedules := scheds.map (fun p => ScheduleEntry.mk0 p.1 p.2),
      clock := start, bet := SimBettingRepo.create (Portfolio.create bankroll),
      dataRepo := dataRepo, tick_interval := tick_interval, strat := s0,
      popped := [] }
  let hook := strat.on_start st.strat start
  let st := applyActions { st with strat := hook.1 } hook.2
  let st := { st with timeline_end := computeTimelineEnd st }
  let prepared := st.schedules.foldr
    (fun entry (acc : Except BetErr (List ScheduleEntry)) =>
      match acc with
      | .error e => .error e
      | .ok rest =>
          match entry.prepare st.clock st.races st.tick_interval st.timeline_end with
          | .error e => .error e
          | .ok entry₂ => .ok (entry₂ :: rest))
    (Except.ok [])
  match prepared with
  | .error e => .error e
  | .ok schedules₂ =>
      let st := { st with schedules := schedules₂ }
      let now := st.clock
      let st := st.races.foldl (seedRace now) st
      let st := { st with next_tick_time := some st.clock,
                          queue := st.queue.enqueue (.time tickName st.clock) }
      .ok st

/-- `canonical_bet_type` as a function of the already lower-cased input
(the body of the source function after `normalized = bet_type.lower()`). -/
def canonicalFromNormalized (normalized : Str) : Str :=
  match CANONICAL_BET_TYPES.find? (fun e => (e.2.map pyLower).contains normalized) with
  | some e => e.1
  | none => normalized

/-- The per-type combination matching rule of the spec, written from the claim:
tuple equality for exacta and trifecta_exact, first-runner equality for
win, bet-runners-contained for place, set equality for the quinella
family and every other type. -/
def specCombinationsMatch (bet_combo result_combo : List Nat) (canonical_type : Str) :
    Prop :=
  if canonical_type = sExacta ∨ canonical_type = sTrifectaExact then
    bet_combo = result_combo
  else if canonical_type = sWin then
    ∃ b r, bet_combo.head? = some b ∧ result_combo.head? = some r ∧ b = r
  else if canonical_type = sPlace then
    ∀ horse ∈ bet_combo, horse ∈ result_combo
  else
    ∀ horse, horse ∈ bet_combo ↔ horse ∈ result_combo

instance (b r : List Nat) (c : Str) : Decidable (specCombinationsMatch b r c) := by
  unfold specCombinationsMatch
  split
  · exact inferInstance
  · split
    · refine decidable_of_iff (b.head?.isSome = true ∧ b.head? = r.head?) ?_
      constructor
      · rintro ⟨hs, he⟩
        match hb : b.head? with
        | some x => exact ⟨x, x, rfl, by rw [← he, hb], rfl⟩
        | none => rw [hb] at hs; cases hs
      · rintro ⟨x, y, hx, hy, rfl⟩
        rw [hx, hy]
        exact ⟨rfl, rfl⟩
    · split
      · exact inferInstance
      · refine decidable_of_iff
          ((∀ h ∈ b, h ∈ r) ∧ ∀ h ∈ r, h ∈ b) ?_
        constructor
        · rintro ⟨h₁, h₂⟩ horse
          exact ⟨fun hh => h₁ horse hh, fun hh => h₂ horse hh⟩
        · intro h
          exact ⟨fun horse hh => (h horse).1 hh, fun horse hh => (h horse).2 hh⟩

/-- Whether a payoff matches a position under the rules of the spec: equal
canonical bet types and a matching combination. -/
def specPayoffMatches (position : BetPosition) (payoff : Payoff) : Prop :=
  canonical_bet_type payoff.bet_type = canonical_bet_type position.bet_type ∧
    specCombinationsMatch position.combination payoff.combination
      (canonical_bet_type position.bet_type)

instance (position : BetPosition) (payoff : Payoff) :
    Decidable (specPayoffMatches position payoff) := by
  unfold specPayoffMatches
  exact inferInstance

/-- The settlement payout of the spec: stake times the odds of the first payoff
in list order that matches, 0 when none does. -/
def specPayout (position : BetPosition) : List Payoff → Money
  | [] => 0
  | payoff :: rest =>
      if specPayoffMatches position payoff then position.stake * payoff.odds
      else specPayout position rest

/-- The `ResultEvent`s among a dispatch log, as `(timestamp, race_id)`. -/
def resultsPopped (popped : List (Time × Event)) : List (Time × Nat) :=
  popped.filterMap (fun p =>
    match p.2 with
    | .result race_id _ => some (p.1, race_id)
    | _ => none)

/-- How many `ResultEvent`s for `race_id` a list of queue entries holds. -/
def resultCount (entries : List QEntry) (race_id : Nat) : Nat :=
  (entries.filter (fun e =>
    match e.2.2 with
    | .result rid _ => rid = race_id
    | _ => false)).length

/-- Whether any queue entry is a payoff `DataEvent`. -/
def hasPayoffEvent (entries : List QEntry) : Bool :=
  entries.any (fun e =>
    match e.2.2 with
    | .data .payoff _ _ _ => true
    | _ => false)

/-- Sum of stakes of a list of positions. -/
def stakeSum (positions : List BetPosition) : Money :=
  (positions.map (fun p => p.stake)).sum

/-- Sum of `stake - payout` over a list of positions. -/
def stakeMinusPayoutSum (positions : List BetPosition) : Money :=
  (positions.map (fun p => p.stake - p.payout)).sum

/-- The equation of the claim under study, verbatim: portfolio cash plus
open stakes plus pending stakes plus `stake − payout` over settled equals
the initial bankroll. -/
def claimCashEquation (b : SimBettingRepo) : Prop :=
  b.portfolio.cash + stakeSum b.portfolio.openPositions +
      (b.pending_confirmations.map (fun e => e.2.stake)).sum +
      stakeMinusPayoutSum b.portfolio.settledPositions =
    b.portfolio.initial_bankroll

/-- The corrected ledger equation: pending reservations do not reduce
`portfolio.cash`, so they do not enter the sum. -/
def balancedPortfolio (p : Portfolio) : Prop :=
  p.cash + stakeSum p.openPositions + stakeMinusPayoutSum p.settledPositions =
    p.initial_bankroll

/-- The contribution of one recorded position to the conserved ledger sum:
its stake while open, stake minus payout once settled, nothing otherwise. -/
def posContribution (pos : BetPosition) : Money :=
  if pos.status = .open then pos.stake
  else if pos.status = .settled then pos.stake - pos.payout
  else 0

/-- The ledger sum of a positions dict. -/
def posSum (l : List (Nat × BetPosition)) : Money :=
  (l.map (fun e => posContribution e.2)).sum

/-- Inductive well-formedness of the betting repository: the ledger
equation holds, recorded position keys are below the bet-id counter, and
pending confirmations carry their own key, stay below the counter, and
never collide with a recorded position. -/
def BetInv (b : SimBettingRepo) : Prop :=
  balancedPortfolio b.portfolio ∧
    (∀ e ∈ b.portfolio.positions, e.1 < b.counter) ∧
    (∀ e ∈ b.pending_confirmations,
      e.2.bet_id = e.1 ∧ e.1 < b.counter ∧
        e.1 ∉ b.portfolio.positions.map (fun q => q.1)) ∧
    (b.pending_confirmations.map (fun e => e.1)).Nodup

/-- A bet submission whose explicit timestamp (if any) does not lie in the
past of the submitting hook. -/
def ActionOk (now : Time) (a : Action) : Prop :=
  ∀ p, a.placed_at = some p → now ≤ p

/-- All submissions of one hook invocation are `ActionOk`. -/
def ActsOk (now : Time) (acts : List Action) : Prop :=
  ∀ a ∈ acts, ActionOk now a

/-- A strategy that never back-dates a bet: the submissions of every hook
carry either no explicit `placed_at` or one at or after the clock of the
hook. -/
def GoodStrategy {σ : Type} (strat : Strategy σ) : Prop :=
  (∀ s t, ActsOk t (strat.on_start s t).2) ∧
    (∀ s t, ActsOk t (strat.on_time s t).2) ∧
    (∀ s k r t ps, ActsOk t (strat.on_data s k r t ps).2) ∧
    (∀ s c t, ActsOk t (strat.on_bet s c t).2) ∧
    (∀ s r t, ActsOk t (strat.on_result s r t).2)

/-- The monotonicity invariant: queue entries never predate the clock, the
dispatch log is chronologically ordered, and the clock bounds it. -/
def MonoInv {σ : Type} (st : EngineState σ) : Prop :=
  (∀ e ∈ st.queue.entries, st.clock ≤ e.1) ∧
    List.Chain' (fun a b => a ≤ b) (st.popped.map (fun p => p.1)) ∧
    (∀ p ∈ st.popped, p.1 ≤ st.clock)

/-- Whether an insertion lands on the front channel: requested front
insertions, and every `TimeEvent` regardless of the requested channel. -/
def frontChannel (op : Bool × Event) : Bool :=
  op.1 || op.2.isTime

/-- Build a queue from a sequence of insertions (`true` = front channel). -/
def buildQueue (ops : List (Bool × Event)) : EventQueue :=
  ops.foldl
    (fun q op => if op.1 then q.enqueueFront op.2 else q.enqueue op.2)
    EventQueue.empty

/-- Strict lexicographic order on `(timestamp, order_key)` as a relation
on queue entries. -/
def keyLt (a b : QEntry) : Prop :=
  a.1 < b.1 ∨ (a.1 = b.1 ∧ a.2.1 < b.2.1)

/-- A strategy that never reacts (all hooks are the default no-ops). -/
def nullStrategy : Strategy Unit :=
  { on_start := fun s _ => (s, []), on_time := fun s _ => (s, []),
    on_data := fun s _ _ _ _ => (s, []), on_bet := fun s _ _ => (s, []),
    on_result := fun s _ _ => (s, []), callback := fun s _ _ => s }

/-- Scenario race `R1` at 2024-04-01T00:00Z with horses `H1`, `H2`. -/
def raceR1 : Race :=
  { race_id := 1, date := 0, horses := [{ horse_id := 1 }, { horse_id := 2 }] }

/-- Scenario payoff: `R1` win for `H1` at odds 1.5, payout 150. -/
def payoffWinH1 : Payoff :=
  { race_id := 1, bet_type := sWin, combination := [1], odds := 3 / 2, payout := 150 }

/-- Scenario S6 data: one race, one win payoff, payoff delay 45 minutes. -/
def s6Repo : SimDataRepo :=
  { races := [raceR1], payoffs := [payoffWinH1], payoff_delay := 2700 }

/-- Strategy for S6: on the race `DataEvent`, stake 100 on `H1` to win
(once; the flag prevents resubmission). -/
def s6Strategy : Strategy Bool :=
  { on_start := fun s _ => (s, []), on_time := fun s _ => (s, []),
    on_data := fun s kind race _ _ =>
      if kind = .race && !s then
        (true, [{ race_id := race.race_id, horse_ids := [1], stake := 100,
                  bet_type := sWin, placed_at := none }])
      else (s, []),
    on_bet := fun s _ _ => (s, []), on_result := fun s _ _ => (s, []),
    callback := fun s _ _ => s }

/-- A throwaway state used only as the fallback of the total run
accessors below (every accessor is paired with a proof that the run
really returned `ok`, so the fallback is never reached). -/
def junkState : EngineState Bool :=
  { queue := EventQueue.empty, next_tick_time := none, races := [],
    timeline_end := 0, schedules := [], clock := 0,
    bet := SimBettingRepo.create (Portfolio.create 0),
    dataRepo := { races := [], payoffs := [], payoff_delay := 0 },
    tick_interval := 1, strat := false, popped := [] }

/-- The S6 run after `n` dispatches (bankroll 1000, simulated clock). -/
def s6Run (n : Nat) : EngineState Bool :=
  match (initRun s6Strategy false s6Repo 1000 [] 1 0).bind
      (engineSteps s6Strategy n) with
  | .ok st => st
  | .error _ => junkState

/-- Whether the S6 run reached `n` dispatches without a repository error. -/
def s6RunOk (n : Nat) : Bool :=
  match (initRun s6Strategy false s6Repo 1000 [] 1 0).bind
      (engineSteps s6Strategy n) with
  | .ok _ => true
  | .error _ => false

/-- Strategy for the double-bet scenario: on the race `DataEvent`, submit
two stake-10 win bets (on `H1` and on `H2`) in one hook invocation. -/
def doubleBetStrategy : Strategy Bool :=
  { on_start := fun s _ => (s, []), on_time := fun s _ => (s, []),
    on_data := fun s kind race _ _ =>
      if kind = .race && !s then
        (true,
          [{ race_id := race.race_id, horse_ids := [1], stake := 10,
             bet_type := sWin, placed_at := none },
           { race_id := race.race_id, horse_ids := [2], stake := 10,
             bet_type := sWin, placed_at := none }])
      else (s, []),
    on_bet := fun s _ _ => (s, []), on_result := fun s _ _ => (s, []),
    callback := fun s _ _ => s }

/-- The double-bet run over the S6 data after `n` dispatches. -/
def doubleBetRun (n : Nat) : EngineState Bool :=
  match (initRun doubleBetStrategy false s6Repo 1000 [] 1 0).bind
      (engineSteps doubleBetStrategy n) with
  | .ok st => st
  | .error _ => junkState

/-- Whether the double-bet run reached `n` dispatches without error. -/
def doubleBetRunOk (n : Nat) : Bool :=
  match (initRun doubleBetStrategy false s6Repo 1000 [] 1 0).bind
      (engineSteps doubleBetStrategy n) with
  | .ok _ => true
  | .error _ => false

/-- A race late in the day, used by the back-dated-bet scenario. -/
def raceLate : Race := { race_id := 1, date := 3600, horses := [{ horse_id := 1 }] }

/-- Data for the back-dated-bet scenario. -/
def lateRepo : SimDataRepo :=
  { races := [raceLate], payoffs := [payoffWinH1], payoff_delay := 600 }

/-- Strategy that back-dates its bet: on the race `DataEvent` (clock
3600) it submits a request with an explicit `placed_at` of 0. -/
def backdateStrategy : Strategy Bool :=
  { on_start := fun s _ => (s, []), on_time := fun s _ => (s, []),
    on_data := fun s kind race _ _ =>
      if kind = .race && !s then
        (true, [{ race_id := race.race_id, horse_ids := [1], stake := 100,
                  bet_type := sWin, placed_at := some 0 }])
      else (s, []),
    on_bet := fun s _ _ => (s, []), on_result := fun s _ _ => (s, []),
    callback := fun s _ _ => s }

/-- The back-dated-bet run after `n` dispatches. -/
def backdateRun (n : Nat) : EngineState Bool :=
  match (initRun backdateStrategy false lateRepo 1000 [] 1 0).bind
      (engineSteps backdateStrategy n) with
  | .ok st => st
  | .error _ => junkState

/-- Whether the back-dated-bet run reached `n` dispatches without error. -/
def backdateRunOk (n : Nat) : Bool :=
  match (initRun backdateStrategy false lateRepo 1000 [] 1 0).bind
      (engineSteps backdateStrategy n) with
  | .ok _ => true
  | .error _ => false

/-- A race on day `d` of April 2024 at 00:00Z (days count from 1). -/
def raceApr (d : Nat) : Race :=
  { race_id := d, date := 86400 * ((d : Int) - 1), horses := [{ horse_id := 1 }] }

/-- Scenario S5 data: races on April 1, 2 and 3 at 00:00Z, no payoff
records, the default 10-minute payoff publication delay. -/
def s5Repo : SimDataRepo :=
  { races := [raceApr 1, raceApr 2, raceApr 3], payoffs := [], payoff_delay := 600 }

/-- A strategy whose scheduled callback records the engine clock (the
shape of the test strategies for schedule assertions). -/
def cronRecorder : Strategy (List Time) :=
  { on_start := fun s _ => (s, []), on_time := fun s _ => (s, []),
    on_data := fun s _ _ _ _ => (s, []), on_bet := fun s _ _ => (s, []),
    on_result := fun s _ _ => (s, []),
    callback := fun s _ now => s ++ [now] }

/-- The S5 run: a `"0 0 * * *"` cron schedule registered at run start. -/
def s5Run (n : Nat) : EngineState (List Time) :=
  match (initRun cronRecorder [] s5Repo 1000 [(7, SchedMode.cron cronMidnight)] 1 0).bind
      (engineSteps cronRecorder n) with
  | .ok st => st
  | .error _ =>
      { queue := EventQueue.empty, next_tick_time := none, races := [],
        timeline_end := 0, schedules := [], clock := 0,
        bet := SimBettingRepo.create (Portfolio.create 0),
        dataRepo := { races := [], payoffs := [], payoff_delay := 0 },
        tick_interval := 1, strat := [], popped := [] }

/-- Whether the S5 run reached `n` dispatches without error. -/
def s5RunOk (n : Nat) : Bool :=
  match (initRun cronRecorder [] s5Repo 1000 [(7, SchedMode.cron cronMidnight)] 1 0).bind
      (engineSteps cronRecorder n) with
  | .ok _ => true
  | .error _ => false

/-- The two-race mirror of the schedule test of the repository itself (races on
April 1 and 2): used to validate the embedding against the test suite. -/
def twoRaceRepo : SimDataRepo :=
  { races := [raceApr 1, raceApr 2], payoffs := [], payoff_delay := 600 }

/-- The two-race cron run. -/
def twoRaceRun (n : Nat) : EngineState (List Time) :=
  match (initRun cronRecorder [] twoRaceRepo 1000 [(7, SchedMode.cron cronMidnight)] 1 0).bind
      (engineSteps cronRecorder n) with
  | .ok st => st
  | .error _ =>
      { queue := EventQueue.empty, next_tick_time := none, races := [],
        timeline_end := 0, schedules := [], clock := 0,
        bet := SimBettingRepo.create (Portfolio.create 0),
        dataRepo := { races := [], payoffs := [], payoff_delay := 0 },
        tick_interval := 1, strat := [], popped := [] }

/-- Status of the position with the given bet id, if recorded. -/
def positionStatus {σ : Type} (st : EngineState σ) (bet_id : Nat) : Option Status :=
  (alGet bet_id st.bet.portfolio.positions).map (fun p => p.status)

/-- An accepted confirmation at timestamp 100 (queue-ordering fixture). -/
def confAt100 : BetConf :=
  { bet_id := 1, race_id := 1, bet_type := sWin, combination := [1], stake := 100,
    placed_at := 100, accepted := true, message := none, position := none }

/-- A tick at timestamp 100 (queue-ordering fixture). -/
def tickAt100 : Event := .time tickName 100

/-- A queue where a confirmation was front-inserted first and a tick
enqueued second, both at timestamp 100. -/
def frontThenTick : EventQueue :=
  (EventQueue.empty.enqueueFront (.betConfirmation confAt100)).enqueue tickAt100

/-- A repository whose payoff table lists the same win payoff twice for a
race the horse starts once in. -/
def dupWinRepo : SimDataRepo :=
  { races := [{ race_id := 1, date := 0, horses := [{ horse_id := 1 }] }],
    payoffs := [payoffWinH1, payoffWinH1], payoff_delay := 600 }

/-- The pending bet behind the handler-level witness states. -/
def pending1 : PendingBet :=
  { bet_id := 1, race_id := 1, bet_type := sWin, combination := [1], stake := 100,
    placed_at := 0 }

/-- The accepted confirmation matching `pending1`. -/
def confEvent1 : BetConf :=
  { bet_id := 1, race_id := 1, bet_type := sWin, combination := [1], stake := 100,
    placed_at := 0, accepted := true, message := none, position := none }

/-- An engine state holding one pending confirmation for `pending1`, poised
to process `confEvent1` (payoff publish time 2700 still in the future). -/
def preConfState : EngineState Bool :=
  { queue := EventQueue.empty, next_tick_time := none, races := [raceR1],
    timeline_end := 86400, schedules := [], clock := 0,
    bet := { portfolio := Portfolio.create 1000, counter := 2,
             pending := [], pending_confirmations := [(1, pending1)] },
    dataRepo := s6Repo, tick_interval := 1, strat := false, popped := [] }

/-- The state after `preConfState` processes `confEvent1`. -/
def postConfState : EngineState Bool :=
  match handleBetConf s6Strategy confEvent1 0 preConfState with
  | .ok st => st
  | .error _ => junkState

/-- The open position behind the payoff-dispatch witness state. -/
def openPos1 : BetPosition :=
  { bet_id := 1, race_id := 1, bet_type := sWin, combination := [1], stake := 100,
    placed_at := 0, status := .open, payout := 0 }

/-- An engine state holding one confirmed open position on `R1`, poised to
process the payoff `DataEvent`. -/
def prePayoffState : EngineState Bool :=
  { queue := EventQueue.empty, next_tick_time := none, races := [raceR1],
    timeline_end := 86400, schedules := [], clock := 2700,
    bet := { portfolio := { initial_bankroll := 1000, cash := 900,
                            positions := [(1, openPos1)] },
             counter := 2, pending := [(1, [openPos1])],
             pending_confirmations := [] },
    dataRepo := s6Repo, tick_interval := 1, strat := true, popped := [] }

/-- The state after `prePayoffState` processes the payoff `DataEvent`. -/
def postPayoffState : EngineState Bool :=
  match handleData s6Strategy .payoff raceR1 [] 2700 prePayoffState with
  | .ok st => st
  | .error _ => junkState

/-- A throwaway `Unit`-strategy state (fallback of `nullRun`). -/
def junkStateU : EngineState Unit :=
  { queue := EventQueue.empty, next_tick_time := none, races := [],
    timeline_end := 0, schedules := [], clock := 0,
    bet := SimBettingRepo.create (Portfolio.create 0),
    dataRepo := { races := [], payoffs := [], payoff_delay := 0 },
    tick_interval := 1, strat := (), popped := [] }

/-- The null-strategy run over the S6 data after `n` dispatches. -/
def nullRun (n : Nat) : EngineState Unit :=
  match (initRun nullStrategy () s6Repo 1000 [] 1 0).bind
      (engineSteps nullStrategy n) with
  | .ok st => st
  | .error _ => junkStateU

/-- The front-channel entries a sequence of same-timestamp insertions
produces, with the orders the descending front counter assigns. -/
def frontEntries (t : Time) : List (Bool × Event) → Int → List QEntry
  | [], _ => []
  | op :: rest, f =>
      if frontChannel op then (t, f, op.2) :: frontEntries t rest (f - 1)
      else frontEntries t rest f

/-- The regular-channel entries of the same insertion sequence, with the
orders the ascending back counter assigns. -/
def regularEntries (t : Time) : List (Bool × Event) → Int → List QEntry
  | [], _ => []
  | op :: rest, c =>
      if frontChannel op then regularEntries t rest c
      else (t, c, op.2) :: regularEntries t rest (c + 1)

set_option maxRecDepth 100000 in
attribute [local semireducible] Rat.add Rat.mul Rat.sub Rat.inv in
/-- C1 counterexample: in scenario S6 (payoff delay 45 minutes) the bet
confirmed at 00:00 does not stay open until the payoff `DataEvent`: after
the confirmation dispatch (dispatch 4) the position is already settled
while the payoff event is still queued, and the only `ResultEvent` of the run
is popped at timestamp 0 (confirmation time), not at the payoff
publication timestamp 2700. -/
theorem c1_counterexample :
    s6RunOk 20 = true ∧
    s6Repo.getPublishTime 1 .payoff = some 2700 ∧
    resultsPopped (s6Run 20).popped = [(0, 1)] ∧
    (resultsPopped (s6Run 20).popped = [(2700, 1)]) = False ∧
    s6RunOk 4 = true ∧
    positionStatus (s6Run 4) 1 = some .settled ∧
    (positionStatus (s6Run 4) 1 = some .open) = False ∧
    hasPayoffEvent (s6Run 4).queue.entries = true := by
  decide

set_option maxRecDepth 100000 in
attribute [local semireducible] Rat.add Rat.mul Rat.sub Rat.inv in
/-- C2 counterexample: in the S6 run, between the bet-request dispatch and
the confirmation dispatch the claimed equation fails — cash is still 1000
while the pending stake 100 is also counted, so the left side is 1100,
not the initial bankroll 1000. -/
theorem c2_counterexample :
    s6RunOk 3 = true ∧
    ¬ claimCashEquation (s6Run 3).bet ∧
    (s6Run 3).bet.portfolio.cash + stakeSum (s6Run 3).bet.portfolio.openPositions +
        (((s6Run 3).bet.pending_confirmations.map (fun e => e.2.stake)).sum) +
        stakeMinusPayoutSum (s6Run 3).bet.portfolio.settledPositions = 1100 ∧
    (s6Run 3).bet.portfolio.initial_bankroll = 1000 := by
  unfold claimCashEquation
  decide

set_option maxRecDepth 100000 in
attribute [local semireducible] Rat.add Rat.mul Rat.sub Rat.inv in
/-- C3 counterexample: two stake-10 bets on `R1` submitted in one hook are
confirmed in two separate dispatches, and the run emits two
`ResultEvent`s for the race — not exactly one — although the race has
published payoffs and confirmed bets. -/
theorem c3_counterexample :
    doubleBetRunOk 30 = true ∧
    s6Repo.getPublishTime 1 .payoff = some 2700 ∧
    (doubleBetRun 30).bet.portfolio.positions.length = 2 ∧
    resultsPopped (doubleBetRun 30).popped = [(0, 1), (0, 1)] ∧
    ((resultsPopped (doubleBetRun 30).popped).length = 1) = False := by
  decide

set_option maxRecDepth 100000 in
attribute [local semireducible] Rat.add Rat.mul Rat.sub Rat.inv in
/-- C7 counterexample: a strategy that supplies an explicit past
`placed_at` (0, while the clock reads 3600) makes the engine pop events
out of timestamp order: the dispatch log runs 3600, 3600, 0, …. -/
theorem c7_counterexample :
    backdateRunOk 30 = true ∧
    (backdateRun 30).popped.map (fun p => p.1) = [3600, 3600, 0, 0, 3600, 4200, 4200] ∧
    ¬ List.Chain' (fun a b => a ≤ b) ((backdateRun 30).popped.map (fun p => p.1)) := by
  refine ⟨by decide, by decide, ?_⟩
  intro h
  have h2 := List.chain'_iff_get.mp h 1 (by decide)
  revert h2
  decide

set_option maxRecDepth 100000 in
attribute [local semireducible] Rat.add Rat.mul Rat.sub Rat.inv in
/-- C8 counterexample: with races on April 1, 2 and 3 the `"0 0 * * *"`
schedule fires four times — the cron activation at April 4 00:00Z equals
`timeline_end` (April 3 + 1 day) and is not excluded — and the clock
finishes at April 4 00:00Z, not April 3 00:00Z. -/
theorem c8_counterexample :
    s5RunOk 40 = true ∧
    (s5Run 40).queue.entries = [] ∧
    (s5Run 40).strat = [0, 86400, 172800, 259200] ∧
    ((s5Run 40).strat = [0, 86400, 172800]) = False ∧
    (s5Run 40).clock = 259200 ∧
    ((s5Run 40).clock = 172800) = False := by
  decide

set_option maxRecDepth 100000 in
attribute [local semireducible] Rat.add Rat.mul Rat.sub Rat.inv in
/-- C8 amended: over the three races the cron schedule `"0 0 * * *"` fires
exactly at April 1, 2, 3 and 4 at 00:00Z — the last activation falling on
`timeline_end` (last race day + 1 day) — and when the run terminates the
clock reads April 4 00:00Z. -/
theorem c8_amended_cron_activations :
    s5RunOk 40 = true ∧
    (s5Run 40).queue.entries = [] ∧
    (s5Run 40).strat = [0, 86400, 172800, 259200] ∧
    (s5Run 40).timeline_end = 259200 ∧
    (s5Run 40).clock = 259200 := by
  decide

attribute [local semireducible] Rat.add Rat.mul Rat.sub Rat.inv in
/-- C9 counterexample: with a race the horse starts once and two win
payoff records naming it, `get_historical` reports `wins = 2 > 1 =
starts` and `win_rate = 2 > 1`. -/
theorem c9_counterexample :
    (dupWinRepo.getHistorical 1).starts = 1 ∧
    (dupWinRepo.getHistorical 1).wins = 2 ∧
    ¬ (dupWinRepo.getHistorical 1).wins ≤ (dupWinRepo.getHistorical 1).starts ∧
    ¬ (dupWinRepo.getHistorical 1).win_rate ≤ 1 := by
  decide

/-- Updating a key of an association list makes it the value `alGet`
finds. -/
theorem alGet_alSet_self {α : Type} (k : Nat) (v : α) (l : List (Nat × α)) :
    alGet k (alSet k v l) = some v := by
  induction l with
  | nil => simp [alSet, alGet]
  | cons e rest ih =>
      obtain ⟨k₂, w⟩ := e
      by_cases h : k₂ = k
      · simp [alSet, h, alGet]
      · simp [alSet, h, alGet, ih]

/-- C9 amended: `get_historical` returns `starts` = number of races
listing the horse, all zeros when `starts = 0` (in particular for an
unknown horse), a non-negative `win_rate`, and — when `starts ≠ 0` —
`wins` = number of win-type payoff records naming the horse and
`win_rate = wins / starts`; `wins` may exceed `starts`. -/
theorem c9_amended_historical (d : SimDataRepo) (horse_id : Nat) :
    0 ≤ (d.getHistorical horse_id).win_rate ∧
    (d.getHistorical horse_id).starts =
      (d.races.filter (fun r => (r.get_horse horse_id).isSome)).length ∧
    ((d.getHistorical horse_id).starts = 0 →
      d.getHistorical horse_id = { starts := 0, wins := 0, win_rate := 0 }) ∧
    ((∀ r ∈ d.races, (r.get_horse horse_id).isSome = false) →
      d.getHistorical horse_id = { starts := 0, wins := 0, win_rate := 0 }) ∧
    ((d.getHistorical horse_id).starts ≠ 0 →
      (d.getHistorical horse_id).wins =
        (d.payoffs.filter (fun p => p.combination.contains horse_id &&
          (p.bet_type = sWin ∨ p.bet_type = sTansho))).length ∧
      (d.getHistorical horse_id).win_rate =
        ((d.getHistorical horse_id).wins : Money) /
          ((d.getHistorical horse_id).starts : Money)) := by
  have hall0 : (∀ r ∈ d.races, (r.get_horse horse_id).isSome = false) →
      (d.races.filter (fun r => (r.get_horse horse_id).isSome)).length = 0 := by
    intro hall
    rw [List.length_eq_zero, List.filter_eq_nil_iff]
    intro r hr
    simp [hall r hr]
  by_cases hz : (d.races.filter (fun r => (r.get_horse horse_id).isSome)).length = 0
  · have he : d.getHistorical horse_id = { starts := 0, wins := 0, win_rate := 0 } := by
      unfold SimDataRepo.getHistorical
      rw [if_pos hz]
    refine ⟨by rw [he], by rw [he, hz], fun _ => he, fun _ => he, fun hs => ?_⟩
    rw [he] at hs
    exact absurd rfl hs
  · have he : d.getHistorical horse_id =
        { starts := (d.races.filter (fun r => (r.get_horse horse_id).isSome)).length,
          wins := (d.payoffs.filter (fun p => p.combination.contains horse_id &&
            (p.bet_type = sWin ∨ p.bet_type = sTansho))).length,
          win_rate := ((d.payoffs.filter (fun p => p.combination.contains horse_id &&
              (p.bet_type = sWin ∨ p.bet_type = sTansho))).length : Money) /
            ((d.races.filter (fun r => (r.get_horse horse_id).isSome)).length : Money) } := by
      unfold SimDataRepo.getHistorical
      rw [if_neg hz]
    refine ⟨?_, by rw [he], fun h0 => ?_, fun hall => absurd (hall0 hall) hz, fun _ => ?_⟩
    · rw [he]
      exact div_nonneg (Nat.cast_nonneg _) (Nat.cast_nonneg _)
    · rw [he] at h0
      exact absurd h0 hz
    · rw [he]
      exact ⟨rfl, rfl⟩

attribute [local semireducible] Rat.add Rat.mul Rat.sub Rat.inv in
/-- Witness for C9: the duplicate-win repository has `starts ≠ 0`, and the
amended theorem yields its `wins` count and `win_rate` value there. -/
theorem c9_witness :
    (dupWinRepo.getHistorical 1).wins =
      (dupWinRepo.payoffs.filter (fun p => p.combination.contains 1 &&
        (p.bet_type = sWin ∨ p.bet_type = sTansho))).length ∧
    (dupWinRepo.getHistorical 1).win_rate =
      ((dupWinRepo.getHistorical 1).wins : Money) /
        ((dupWinRepo.getHistorical 1).starts : Money) :=
  (c9_amended_historical dupWinRepo 1).2.2.2.2 (by decide)

/-- C4: `place_bet` of the simulation repository always returns a
confirmation (it is a total function of the embedding, never an
exception), rejects with a non-null diagnostic message exactly when the
stake is non-positive or exceeds available cash — portfolio cash minus
the stakes reserved by pending confirmations — and otherwise accepts and
records a pending bet with the same bet id, stake and combination. -/
theorem c4_place_bet_validation (b : SimBettingRepo) (race_id : Nat)
    (horse_ids : List Nat) (stake : Money) (bet_type : Str) (placed_at : Time) :
    ((b.placeBet race_id horse_ids stake bet_type placed_at).1.accepted = false ∧
        ((b.placeBet race_id horse_ids stake bet_type placed_at).1.message).isSome = true ↔
      stake ≤ 0 ∨
        b.portfolio.cash - ((b.pending_confirmations.map (fun e => e.2.stake)).sum) < stake) ∧
    ((b.placeBet race_id horse_ids stake bet_type placed_at).1.race_id = race_id ∧
      (b.placeBet race_id horse_ids stake bet_type placed_at).1.combination = horse_ids ∧
      (b.placeBet race_id horse_ids stake bet_type placed_at).1.stake = stake) ∧
    (¬ (stake ≤ 0 ∨
          b.portfolio.cash - ((b.pending_confirmations.map (fun e => e.2.stake)).sum) < stake) →
      (b.placeBet race_id horse_ids stake bet_type placed_at).1.accepted = true ∧
        (b.placeBet race_id horse_ids stake bet_type placed_at).1.message = none ∧
        alGet (b.placeBet race_id horse_ids stake bet_type placed_at).1.bet_id
            (b.placeBet race_id horse_ids stake bet_type placed_at).2.pending_confirmations =
          some { bet_id := (b.placeBet race_id horse_ids stake bet_type placed_at).1.bet_id,
                 race_id := race_id, bet_type := bet_type, combination := horse_ids,
                 stake := stake, placed_at := placed_at }) := by
  unfold SimBettingRepo.placeBet SimBettingRepo.availableCash
  split_ifs with h1 h2
  · simp [h1]
  · simp [h1, h2]
  · simp [h1, h2, alGet_alSet_self]

attribute [local semireducible] Rat.add Rat.mul Rat.sub Rat.inv in
/-- Witness for C4: a fresh 1000-bankroll repository accepts a stake-100
bet and records the matching pending reservation. -/
theorem c4_witness :
    ((SimBettingRepo.create (Portfolio.create 1000)).placeBet 1 [1] 100 sWin 0).1.accepted
        = true ∧
    ((SimBettingRepo.create (Portfolio.create 1000)).placeBet 1 [1] 100 sWin 0).1.message
        = none ∧
    alGet ((SimBettingRepo.create (Portfolio.create 1000)).placeBet 1 [1] 100 sWin 0).1.bet_id
        (((SimBettingRepo.create (Portfolio.create 1000)).placeBet 1 [1] 100 sWin 0).2.pending_confirmations) =
      some { bet_id := ((SimBettingRepo.create (Portfolio.create 1000)).placeBet 1 [1] 100 sWin 0).1.bet_id,
             race_id := 1, bet_type := sWin, combination := [1], stake := 100,
             placed_at := 0 } :=
  (c4_place_bet_validation (SimBettingRepo.create (Portfolio.create 1000))
    1 [1] 100 sWin 0).2.2 (by decide)

/-- `lowerChar` is idempotent: lowering an already-lowered code point
changes nothing. -/
theorem lowerChar_idem (c : Nat) : lowerChar (lowerChar c) = lowerChar c := by
  unfold lowerChar
  split_ifs with h1 h2 <;> omega

/-- `pyLower` is idempotent. -/
theorem pyLower_idem (s : Str) : pyLower (pyLower s) = pyLower s := by
  unfold pyLower
  rw [List.map_map]
  exact List.map_congr_left (fun c _ => lowerChar_idem c)

/-- `canonical_bet_type` factors through lower-casing. -/
theorem canonical_eq_CFN (s : Str) :
    canonical_bet_type s = canonicalFromNormalized (pyLower s) := rfl

/-- C10: `canonical_bet_type` is idempotent, every canonical label maps to
itself, and every alias of the table — in any letter case, captured by
quantifying over all strings that lower-case like the alias — maps to its
canonical label. -/
theorem c10_canonical_idempotent_and_aliases :
    (∀ s : Str, canonical_bet_type (canonical_bet_type s) = canonical_bet_type s) ∧
    ∀ e ∈ CANONICAL_BET_TYPES, canonical_bet_type e.1 = e.1 ∧
      ∀ a ∈ e.2, ∀ s : Str, pyLower s = pyLower a → canonical_bet_type s = e.1 := by
  have hc : ∀ e ∈ CANONICAL_BET_TYPES, canonical_bet_type e.1 = e.1 := by decide
  have ha : ∀ e ∈ CANONICAL_BET_TYPES, ∀ a ∈ e.2,
      canonicalFromNormalized (pyLower a) = e.1 := by decide
  refine ⟨?_, fun e he => ⟨hc e he, fun a haa s hs => ?_⟩⟩
  · intro s
    rw [canonical_eq_CFN s]
    set n := pyLower s with hdef
    have hn : pyLower n = n := by rw [hdef]; exact pyLower_idem s
    unfold canonicalFromNormalized
    cases hf : CANONICAL_BET_TYPES.find? (fun e => (e.2.map pyLower).contains n) with
    | some e =>
        have he : e ∈ CANONICAL_BET_TYPES := List.mem_of_find?_eq_some hf
        exact hc e he
    | none =>
        rw [canonical_eq_CFN n]
        unfold canonicalFromNormalized
        rw [hn, hf]
  · rw [canonical_eq_CFN s, hs]
    exact ha e he a haa

/-- Witness for C10: idempotence at `"ワイド"`, and the upper-case alias
`"WIN"` (lower-casing to `"win"`) and the Japanese alias `"三連単"` map to
their canonical labels. -/
theorem c10_witness :
    canonical_bet_type (canonical_bet_type sWide_jp) = canonical_bet_type sWide_jp ∧
    canonical_bet_type [87, 73, 78] = sWin ∧
    canonical_bet_type sSanrentan = sTrifectaExact :=
  ⟨c10_canonical_idempotent_and_aliases.1 sWide_jp,
   (c10_canonical_idempotent_and_aliases.2 (sWin, [sWin, sTansho]) (by decide)).2
     sWin (by decide) [87, 73, 78] (by decide),
   (c10_canonical_idempotent_and_aliases.2
       (sTrifectaExact, [sTrifectaExact, sSanrentan]) (by decide)).2
     sSanrentan (by decide) sSanrentan rfl⟩

/-- The combination matcher of the repository agrees with the per-type
rule of the spec, for every canonical type string. -/
theorem combinationsMatch_iff (b r : List Nat) (c : Str) :
    combinationsMatch b r c = true ↔ specCombinationsMatch b r c := by
  by_cases h1 : c = sExacta ∨ c = sTrifectaExact
  · have hos : c ∈ ORDER_SENSITIVE := by
      unfold ORDER_SENSITIVE
      rcases h1 with rfl | rfl <;> simp
    unfold combinationsMatch specCombinationsMatch
    simp [hos, h1]
  · have hos : ORDER_SENSITIVE.contains c = false := by
      rw [Bool.eq_false_iff]
      intro hm
      rw [List.elem_iff] at hm
      unfold ORDER_SENSITIVE at hm
      rcases List.mem_cons.mp hm with h | hm2
      · exact h1 (Or.inl h)
      · rcases List.mem_cons.mp hm2 with h | hm3
        · exact h1 (Or.inr h)
        · exact absurd hm3 (List.not_mem_nil c)
    unfold combinationsMatch specCombinationsMatch
    rw [if_neg h1]
    rw [hos]
    simp only [Bool.false_eq_true, if_false]
    by_cases h2 : c = sWin
    · rw [if_pos h2, if_pos h2]
      cases b with
      | nil => simp
      | cons x xs =>
          cases r with
          | nil => simp
          | cons y ys => simp
    · rw [if_neg h2, if_neg h2]
      by_cases h3 : c = sPlace
      · rw [if_pos h3, if_pos h3]
        simp [List.all_eq_true, List.elem_iff]
      · rw [if_neg h3, if_neg h3]
        by_cases h4 : c = sQuinella ∨ c = sQuinellaPlace ∨ c = sBracketQuinella ∨
            c = sTrifectaBox
        · rw [if_pos h4]
          simp only [Bool.and_eq_true, List.all_eq_true, List.elem_iff]
          constructor
          · rintro ⟨hbr, hrb⟩ horse
            exact ⟨fun hh => hbr horse hh, fun hh => hrb horse hh⟩
          · intro h
            exact ⟨fun horse hh => (h horse).1 hh, fun horse hh => (h horse).2 hh⟩
        · rw [if_neg h4]
          simp only [Bool.and_eq_true, List.all_eq_true, List.elem_iff]
          constructor
          · rintro ⟨hbr, hrb⟩ horse
            exact ⟨fun hh => hbr horse hh, fun hh => hrb horse hh⟩
          · intro h
            exact ⟨fun horse hh => (h horse).1 hh, fun horse hh => (h horse).2 hh⟩

/-- C5: for every position and payoff list, the settlement payout equals
stake × odds of the first payoff in list order whose canonical bet type
equals that of the position and whose combination matches under the
per-type rule of the spec, and 0 when no payoff matches. -/
theorem c5_payout_follows_spec_rules (position : BetPosition) (payoffs : List Payoff) :
    calculatePayout position payoffs = specPayout position payoffs := by
  induction payoffs with
  | nil => rfl
  | cons p rest ih =>
      simp only [calculatePayout]
      unfold specPayout
      rw [List.find?_cons]
      by_cases hm : specPayoffMatches position p
      · have hb : (canonical_bet_type p.bet_type = canonical_bet_type position.bet_type &&
            combinationsMatch position.combination p.combination
              (canonical_bet_type position.bet_type)) = true := by
          obtain ⟨h1, h2⟩ := hm
          simp [h1, (combinationsMatch_iff _ _ _).mpr h2]
        rw [hb]
        rw [if_pos hm]
      · have hb : (canonical_bet_type p.bet_type = canonical_bet_type position.bet_type &&
            combinationsMatch position.combination p.combination
              (canonical_bet_type position.bet_type)) = false := by
          rw [Bool.eq_false_iff]
          intro hcontra
          simp only [Bool.and_eq_true, decide_eq_true_eq] at hcontra
          exact hm ⟨hcontra.1, (combinationsMatch_iff _ _ _).mp hcontra.2⟩
        rw [hb]
        rw [if_neg hm]
        simp only [calculatePayout] at ih
        exact ih

/-- C6 counterexample: a confirmation front-inserted at timestamp 100
BEFORE a tick is enqueued at the same timestamp dequeues AFTER the tick
— the front counter serves both channels, so the later tick got the
smaller order key — refuting "a front-inserted event always precedes a
TimeEvent at the same timestamp, whichever was inserted first". -/
theorem c6_counterexample :
    frontThenTick.drain = [tickAt100, Event.betConfirmation confAt100] ∧
    (frontThenTick.drain = [Event.betConfirmation confAt100, tickAt100]) = False ∧
    (Event.betConfirmation confAt100).isTime = false ∧
    eventTime (Event.betConfirmation confAt100) = 100 ∧
    eventTime tickAt100 = 100 := by
  decide

/-- `keyLe` on explicit entry components. -/
theorem keyLe_mk {t1 t2 o1 o2 : Int} {e1 e2 : Event} :
    keyLe (t1, o1, e1) (t2, o2, e2) = true ↔ (t1 < t2 ∨ (t1 = t2 ∧ o1 ≤ o2)) := by
  simp [keyLe]

/-- `keyLe` is reflexive. -/
theorem keyLe_refl (a : QEntry) : keyLe a a = true := by
  simp [keyLe]

/-- `keyLe` is transitive. -/
theorem keyLe_trans {a b c : QEntry} (h1 : keyLe a b = true) (h2 : keyLe b c = true) :
    keyLe a c = true := by
  obtain ⟨ta, oa, ea⟩ := a
  obtain ⟨tb, ob, eb⟩ := b
  obtain ⟨tc, oc, ec⟩ := c
  rw [keyLe_mk] at h1 h2 ⊢
  omega

/-- `keyLe` is total. -/
theorem keyLe_of_not_keyLe {a b : QEntry} (h : ¬ keyLe a b = true) : keyLe b a = true := by
  obtain ⟨ta, oa, ea⟩ := a
  obtain ⟨tb, ob, eb⟩ := b
  rw [keyLe_mk] at h ⊢
  omega

/-- `popMin` of a non-empty entry list returns a minimum together with a
permutation-complement of the rest. -/
theorem popMin_spec (l : List QEntry) :
    l = [] ∨ ∃ m r, popMin l = some (m, r) ∧ l.Perm (m :: r) ∧
      ∀ x ∈ l, keyLe m x = true := by
  induction l with
  | nil => exact Or.inl rfl
  | cons e rest ih =>
      right
      rcases ih with rfl | ⟨m, r, hpop, hperm, hmin⟩
      · refine ⟨e, [], by simp [popMin], List.Perm.refl _, ?_⟩
        intro x hx
        rcases List.mem_cons.mp hx with rfl | hx2
        · exact keyLe_refl x
        · exact absurd hx2 (List.not_mem_nil x)
      · by_cases hle : keyLe e m = true
        · refine ⟨e, rest, ?_, List.Perm.refl _, ?_⟩
          · simp only [popMin, hpop]
            rw [if_pos hle]
          · intro x hx
            rcases List.mem_cons.mp hx with rfl | hx2
            · exact keyLe_refl x
            · exact keyLe_trans hle (hmin x hx2)
        · refine ⟨m, e :: r, ?_, ?_, ?_⟩
          · simp only [popMin, hpop]
            rw [if_neg hle]
          · exact (hperm.cons e).trans (List.Perm.swap m e r)
          · intro x hx
            rcases List.mem_cons.mp hx with rfl | hx2
            · exact keyLe_of_not_keyLe hle
            · exact hmin x hx2

/-- Draining with enough fuel is a permutation of the entries. -/
theorem drainE_perm : ∀ (fuel : Nat) (l : List QEntry), l.length ≤ fuel →
    (drainE fuel l).Perm l := by
  intro fuel
  induction fuel with
  | zero =>
      intro l h
      have : l = [] := List.length_eq_zero.mp (Nat.le_zero.mp h)
      subst this
      simp [drainE]
  | succ n ih =>
      intro l hl
      rcases popMin_spec l with rfl | ⟨m, r, hpop, hperm, hmin⟩
      · simp [drainE, popMin]
      · simp only [drainE, hpop]
        have hlen : l.length = r.length + 1 := by
          have := hperm.length_eq
          simpa using this
        have hr : r.length ≤ n := by omega
        exact ((ih r hr).cons m).trans hperm.symm

/-- The drain order is sorted by `(timestamp, order_key)`. -/
theorem drainE_sorted : ∀ (fuel : Nat) (l : List QEntry), l.length ≤ fuel →
    List.Pairwise (fun a b => keyLe a b = true) (drainE fuel l) := by
  intro fuel
  induction fuel with
  | zero => intro l _; simp [drainE]
  | succ n ih =>
      intro l hl
      rcases popMin_spec l with rfl | ⟨m, r, hpop, hperm, hmin⟩
      · simp [drainE, popMin]
      · simp only [drainE, hpop]
        have hlen : l.length = r.length + 1 := by
          have := hperm.length_eq
          simpa using this
        have hr : r.length ≤ n := by omega
        refine List.Pairwise.cons ?_ (ih r hr)
        intro b hb
        have hbr : b ∈ r := (drainE_perm n r hr).mem_iff.mp hb
        exact hmin b (hperm.mem_iff.mpr (List.mem_cons_of_mem m hbr))

/-- A queue built from same-timestamp insertions holds exactly the front-
and regular-channel entries, and the counters advance by the number of
insertions each channel received. -/
theorem buildQueue_entries_general (t : Time) :
    ∀ (ops : List (Bool × Event)) (q : EventQueue),
      (∀ op ∈ ops, eventTime op.2 = t) →
      (ops.foldl (fun q op => if op.1 then q.enqueueFront op.2 else q.enqueue op.2) q).entries.Perm
        ((frontEntries t ops q.front_counter ++ regularEntries t ops q.counter) ++ q.entries) ∧
      (ops.foldl (fun q op => if op.1 then q.enqueueFront op.2 else q.enqueue op.2) q).counter =
        q.counter + ((ops.filter (fun op => !frontChannel op)).length : Int) ∧
      (ops.foldl (fun q op => if op.1 then q.enqueueFront op.2 else q.enqueue op.2) q).front_counter =
        q.front_counter - ((ops.filter frontChannel).length : Int) := by
  intro ops
  induction ops with
  | nil =>
      intro q hall
      refine ⟨?_, by simp, by simp⟩
      simp [frontEntries, regularEntries]
  | cons op rest ih =>
      intro q hall
      have hop : eventTime op.2 = t := hall op (List.mem_cons_self op rest)
      have hrest : ∀ x ∈ rest, eventTime x.2 = t :=
        fun x hx => hall x (List.mem_cons_of_mem op hx)
      by_cases hf : frontChannel op = true
      · have hstep : (if op.1 then q.enqueueFront op.2 else q.enqueue op.2) =
            { q with entries := (t, q.front_counter, op.2) :: q.entries,
                     front_counter := q.front_counter - 1 } := by
          unfold frontChannel at hf
          by_cases h1 : op.1
          · simp only [if_pos h1]
            unfold EventQueue.enqueueFront
            rw [hop]
          · simp only [if_neg h1]
            unfold EventQueue.enqueue
            have h2 : op.2.isTime = true := by
              rcases Bool.or_eq_true_iff.mp hf with h | h
              · exact absurd h h1
              · exact h
            rw [if_pos h2, hop]
        rw [List.foldl_cons, hstep]
        obtain ⟨hp, hc, hfc⟩ := ih _ hrest
        refine ⟨?_, ?_, ?_⟩
        · refine hp.trans ?_
          simp only [frontEntries, regularEntries, if_pos hf, List.append_assoc,
            List.cons_append]
          exact (@List.perm_middle _ (t, q.front_counter, op.2)
            (frontEntries t rest (q.front_counter - 1) ++ regularEntries t rest q.counter)
            q.entries).trans (by simp) |>.symm.trans (by simp) |>.symm
        · rw [hc]
          simp [List.filter_cons, hf]
        · rw [hfc]
          simp only [List.filter_cons, hf, if_pos, List.length_cons]
          push_cast
          ring
      · have hf2 : frontChannel op = false := by
          revert hf
          cases frontChannel op <;> simp
        have h12 := Bool.or_eq_false_iff.mp (by
          unfold frontChannel at hf2
          exact hf2)
        have hstep : (if op.1 then q.enqueueFront op.2 else q.enqueue op.2) =
            { q with entries := (t, q.counter, op.2) :: q.entries,
                     counter := q.counter + 1 } := by
          simp only [h12.1, if_false, Bool.false_eq_true]
          unfold EventQueue.enqueue
          rw [if_neg (by rw [h12.2]; exact Bool.false_ne_true), hop]
        rw [List.foldl_cons, hstep]
        obtain ⟨hp, hc, hfc⟩ := ih _ hrest
        refine ⟨?_, ?_, ?_⟩
        · refine hp.trans ?_
          simp only [frontEntries, regularEntries, hf2, if_false, Bool.false_eq_true,
            List.append_assoc, List.cons_append]
          exact List.Perm.append_left _ List.perm_middle
        · rw [hc]
          simp only [List.filter_cons, hf2, Bool.not_false, if_pos, List.length_cons]
          push_cast
          ring
        · rw [hfc]
          simp [List.filter_cons, hf2]

/-- The front-channel entries all carry the shared timestamp, their
orders descend strictly from the starting front counter, and their
events are the front-channel insertions in order. -/
theorem frontEntries_facts (t : Time) :
    ∀ (ops : List (Bool × Event)) (f : Int),
      (∀ e ∈ frontEntries t ops f, e.1 = t ∧ e.2.1 ≤ f) ∧
      List.Pairwise (fun a b => b.2.1 < a.2.1) (frontEntries t ops f) ∧
      (frontEntries t ops f).map (fun e => e.2.2) =
        (ops.filter frontChannel).map (fun op => op.2) := by
  intro ops
  induction ops with
  | nil =>
      intro f
      refine ⟨by simp [frontEntries], by simp [frontEntries], by simp [frontEntries]⟩
  | cons op rest ih =>
      intro f
      by_cases hf : frontChannel op = true
      · obtain ⟨hb, hp, hm⟩ := ih (f - 1)
        refine ⟨?_, ?_, ?_⟩
        · intro e he
          simp only [frontEntries, if_pos hf] at he
          rcases List.mem_cons.mp he with rfl | he2
          · exact ⟨rfl, le_refl _⟩
          · obtain ⟨h1, h2⟩ := hb e he2
            exact ⟨h1, by omega⟩
        · simp only [frontEntries, if_pos hf]
          refine List.Pairwise.cons ?_ hp
          intro b hbmem
          have h2 := (hb b hbmem).2
          show b.2.1 < f
          omega
        · simp only [frontEntries, if_pos hf, List.filter_cons, hf, if_true, List.map_cons, hm]
      · obtain ⟨hb, hp, hm⟩ := ih f
        have hf2 : frontChannel op = false := by
          revert hf
          cases frontChannel op <;> simp
        refine ⟨?_, ?_, ?_⟩
        · intro e he
          simp only [frontEntries, hf2, Bool.false_eq_true, if_false] at he
          exact hb e he
        · simp only [frontEntries, hf2, Bool.false_eq_true, if_false]
          exact hp
        · simp only [frontEntries, hf2, Bool.false_eq_true, if_false, List.filter_cons, hm]

/-- The regular-channel entries all carry the shared timestamp, their
orders ascend strictly from the starting back counter, and their events
are the regular insertions in order. -/
theorem regularEntries_facts (t : Time) :
    ∀ (ops : List (Bool × Event)) (c : Int),
      (∀ e ∈ regularEntries t ops c, e.1 = t ∧ c ≤ e.2.1) ∧
      List.Pairwise (fun a b => a.2.1 < b.2.1) (regularEntries t ops c) ∧
      (regularEntries t ops c).map (fun e => e.2.2) =
        (ops.filter (fun op => !frontChannel op)).map (fun op => op.2) := by
  intro ops
  induction ops with
  | nil =>
      intro c
      refine ⟨by simp [regularEntries], by simp [regularEntries], by simp [regularEntries]⟩
  | cons op rest ih =>
      intro c
      by_cases hf : frontChannel op = true
      · obtain ⟨hb, hp, hm⟩ := ih c
        refine ⟨?_, ?_, ?_⟩
        · intro e he
          simp only [regularEntries, if_pos hf] at he
          exact hb e he
        · simp only [regularEntries, if_pos hf]
          exact hp
        · simp only [regularEntries, if_pos hf, List.filter_cons, hf, Bool.not_true,
            Bool.false_eq_true, if_false]
          exact hm
      · obtain ⟨hb, hp, hm⟩ := ih (c + 1)
        have hf2 : frontChannel op = false := by
          revert hf
          cases frontChannel op <;> simp
        refine ⟨?_, ?_, ?_⟩
        · intro e he
          simp only [regularEntries, hf2, Bool.false_eq_true, if_false] at he
          rcases List.mem_cons.mp he with rfl | he2
          · exact ⟨rfl, le_refl _⟩
          · obtain ⟨h1, h2⟩ := hb e he2
            exact ⟨h1, by omega⟩
        · simp only [regularEntries, hf2, Bool.false_eq_true, if_false]
          refine List.Pairwise.cons ?_ hp
          intro b hbmem
          have h2 := (hb b hbmem).2
          show c < b.2.1
          omega
        · simp only [regularEntries, hf2, Bool.false_eq_true, if_false, List.filter_cons,
            Bool.not_false, if_true, List.map_cons, hm]

/-- `keyLt` on explicit entry components. -/
theorem keyLt_mk {t1 t2 o1 o2 : Int} {e1 e2 : Event} :
    keyLt (t1, o1, e1) (t2, o2, e2) ↔ (t1 < t2 ∨ (t1 = t2 ∧ o1 < o2)) := by
  unfold keyLt
  simp

/-- Weak key order plus distinct order keys give the strict order. -/
theorem keyLt_of_keyLe_ne {a b : QEntry} (h1 : keyLe a b = true) (h2 : a.2.1 ≠ b.2.1) :
    keyLt a b := by
  obtain ⟨ta, oa, ea⟩ := a
  obtain ⟨tb, ob, eb⟩ := b
  rw [keyLe_mk] at h1
  rw [keyLt_mk]
  have h3 : oa ≠ ob := h2
  rcases h1 with h | ⟨h, h4⟩
  · exact Or.inl h
  · exact Or.inr ⟨h, lt_of_le_of_ne h4 h3⟩

/-- `keyLt` is asymmetric. -/
theorem keyLt_asymm {a b : QEntry} (h1 : keyLt a b) (h2 : keyLt b a) : False := by
  obtain ⟨ta, oa, ea⟩ := a
  obtain ⟨tb, ob, eb⟩ := b
  rw [keyLt_mk] at h1 h2
  rcases h1 with h | ⟨h, h3⟩ <;> rcases h2 with h2a | ⟨h2a, h2b⟩ <;> omega

/-- Entries at one timestamp compare strictly by order key. -/
theorem keyLt_same_time {a b : QEntry} (h1 : a.1 = b.1) (h2 : a.2.1 < b.2.1) :
    keyLt a b := by
  obtain ⟨ta, oa, ea⟩ := a
  obtain ⟨tb, ob, eb⟩ := b
  have h3 : ta = tb := h1
  have h4 : oa < ob := h2
  rw [keyLt_mk]
  exact Or.inr ⟨h3, h4⟩

/-- The reversed front block followed by the regular block is strictly
sorted by `(timestamp, order_key)`. -/
theorem expected_pairwise (t : Time) (ops : List (Bool × Event)) :
    List.Pairwise keyLt
      ((frontEntries t ops (-1)).reverse ++ regularEntries t ops 0) := by
  obtain ⟨hfb, hfp, _⟩ := frontEntries_facts t ops (-1)
  obtain ⟨hrb, hrp, _⟩ := regularEntries_facts t ops 0
  rw [List.pairwise_append]
  refine ⟨?_, ?_, ?_⟩
  · rw [List.pairwise_reverse]
    refine List.Pairwise.imp_of_mem ?_ hfp
    intro a b ha hb hab
    exact keyLt_same_time (by rw [(hfb b hb).1, (hfb a ha).1]) hab
  · refine List.Pairwise.imp_of_mem ?_ hrp
    intro a b ha hb hab
    exact keyLt_same_time (by rw [(hrb a ha).1, (hrb b hb).1]) hab
  · intro a ha b hb
    have ha2 := hfb a (List.mem_reverse.mp ha)
    have hb2 := hrb b hb
    refine keyLt_same_time (by rw [ha2.1, hb2.1]) (by omega)

/-- C6 amended: at one shared timestamp the queue dequeues in TWO tiers,
not three — the front channel (front insertions and every `TimeEvent`,
which share the descending counter) in LIFO order of insertion, followed
by the regular insertions in FIFO order.  A front-inserted event precedes
a tick at the same timestamp only when it was inserted after the tick. -/
theorem c6_amended_two_tier_order (ops : List (Bool × Event)) (t : Time)
    (hall : ∀ op ∈ ops, eventTime op.2 = t) :
    (buildQueue ops).drain =
      ((ops.filter frontChannel).reverse ++ ops.filter (fun op => !frontChannel op)).map
        (fun op => op.2) := by
  obtain ⟨hfb, hfp, hfm⟩ := frontEntries_facts t ops (-1)
  obtain ⟨hrb, hrp, hrm⟩ := regularEntries_facts t ops 0
  have hchar := (buildQueue_entries_general t ops EventQueue.empty hall).1
  have hperm : (buildQueue ops).entries.Perm
      (frontEntries t ops (-1) ++ regularEntries t ops 0) := by
    have h2 := hchar
    simp only [EventQueue.empty, List.append_nil] at h2
    exact h2
  have hperm2 : (buildQueue ops).entries.Perm
      ((frontEntries t ops (-1)).reverse ++ regularEntries t ops 0) :=
    hperm.trans (List.Perm.append_right _ (List.reverse_perm _).symm)
  have hexp : List.Pairwise keyLt
      ((frontEntries t ops (-1)).reverse ++ regularEntries t ops 0) :=
    expected_pairwise t ops
  have hdrainperm : (drainE (buildQueue ops).entries.length (buildQueue ops).entries).Perm
      ((frontEntries t ops (-1)).reverse ++ regularEntries t ops 0) :=
    (drainE_perm _ _ (le_refl _)).trans hperm2
  have htime : ∀ e ∈ (frontEntries t ops (-1)).reverse ++ regularEntries t ops 0,
      e.1 = t := by
    intro e he
    rcases List.mem_append.mp he with h | h
    · exact (hfb e (List.mem_reverse.mp h)).1
    · exact (hrb e h).1
  have hords : List.Pairwise (fun a b : QEntry => a.2.1 < b.2.1)
      ((frontEntries t ops (-1)).reverse ++ regularEntries t ops 0) := by
    refine List.Pairwise.imp_of_mem ?_ hexp
    intro a b ha hb hab
    obtain ⟨tta, toa, tea⟩ := a
    obtain ⟨ttb, tob, teb⟩ := b
    have h1 : tta = t := htime _ ha
    have h2 : ttb = t := htime _ hb
    rw [keyLt_mk] at hab
    show toa < tob
    rcases hab with h | ⟨h, h3⟩
    · exfalso
      rw [h1, h2] at h
      exact lt_irrefl t h
    · exact h3
  have hnodup : ((frontEntries t ops (-1)).reverse ++ regularEntries t ops 0).Pairwise
      (fun a b => a.2.1 ≠ b.2.1) :=
    hords.imp (fun h => ne_of_lt h)
  have hnodup2 : (drainE (buildQueue ops).entries.length (buildQueue ops).entries).Pairwise
      (fun a b : QEntry => a.2.1 ≠ b.2.1) := by
    exact (List.Perm.pairwise_iff (fun h => Ne.symm h) hdrainperm).mpr hnodup
  have hsorted : List.Pairwise (fun a b => keyLe a b = true)
      (drainE (buildQueue ops).entries.length (buildQueue ops).entries) :=
    drainE_sorted _ _ (le_refl _)
  have hdrainlt : List.Pairwise keyLt
      (drainE (buildQueue ops).entries.length (buildQueue ops).entries) :=
    (hsorted.and hnodup2).imp (fun h => keyLt_of_keyLe_ne h.1 h.2)
  haveI : IsAntisymm QEntry keyLt :=
    ⟨fun a b h1 h2 => absurd h2 (fun h2 => keyLt_asymm h1 h2)⟩
  have heq : drainE (buildQueue ops).entries.length (buildQueue ops).entries =
      (frontEntries t ops (-1)).reverse ++ regularEntries t ops 0 :=
    List.eq_of_perm_of_sorted hdrainperm hdrainlt hexp
  unfold EventQueue.drain
  rw [heq, List.map_append, List.map_reverse, hfm, hrm, List.map_append,
    List.map_reverse]

/-- Witness for C6: a tick enqueued at timestamp 100 followed by a
front-inserted confirmation at the same timestamp dequeues confirmation
first (front LIFO), matching the two-tier characterization. -/
theorem c6_witness :
    (buildQueue [(false, tickAt100), (true, Event.betConfirmation confAt100)]).drain =
      (([(false, tickAt100), (true, Event.betConfirmation confAt100)].filter
          frontChannel).reverse ++
        [(false, tickAt100), (true, Event.betConfirmation confAt100)].filter
          (fun op => !frontChannel op)).map (fun op => op.2) :=
  c6_amended_two_tier_order
    [(false, tickAt100), (true, Event.betConfirmation confAt100)] 100 (by decide)

/-- Submitting one bet action changes only the queue, and adds no
`ResultEvent`. -/
theorem submitAction_preserves {σ : Type} (st : EngineState σ) (a : Action) :
    (submitAction st a).bet = st.bet ∧ (submitAction st a).strat = st.strat ∧
    (submitAction st a).clock = st.clock ∧ (submitAction st a).dataRepo = st.dataRepo ∧
    ∀ rid, resultCount (submitAction st a).queue.entries rid =
      resultCount st.queue.entries rid := by
  refine ⟨rfl, rfl, rfl, rfl, ?_⟩
  intro rid
  unfold submitAction EventQueue.enqueue
  simp only [Event.isTime]
  unfold resultCount
  simp [List.filter_cons]

/-- Applying the bet submissions of a hook changes only the queue, and adds
no `ResultEvent`. -/
theorem applyActions_preserves {σ : Type} (acts : List Action) (st : EngineState σ) :
    (applyActions st acts).bet = st.bet ∧ (applyActions st acts).strat = st.strat ∧
    (applyActions st acts).clock = st.clock ∧
    (applyActions st acts).dataRepo = st.dataRepo ∧
    ∀ rid, resultCount (applyActions st acts).queue.entries rid =
      resultCount st.queue.entries rid := by
  induction acts generalizing st with
  | nil => exact ⟨rfl, rfl, rfl, rfl, fun _ => rfl⟩
  | cons a rest ih =>
      have h1 := submitAction_preserves st a
      have h2 := ih (submitAction st a)
      unfold applyActions at h2 ⊢
      rw [List.foldl_cons]
      exact ⟨h2.1.trans h1.1, h2.2.1.trans h1.2.1, h2.2.2.1.trans h1.2.2.1,
        h2.2.2.2.1.trans h1.2.2.2.1,
        fun rid => (h2.2.2.2.2 rid).trans (h1.2.2.2.2 rid)⟩

/-- Applying bet submissions keeps every existing queue entry. -/
theorem applyActions_mem {σ : Type} (acts : List Action) (st : EngineState σ)
    (e : QEntry) (he : e ∈ st.queue.entries) :
    e ∈ (applyActions st acts).queue.entries := by
  induction acts generalizing st with
  | nil => exact he
  | cons a rest ih =>
      unfold applyActions
      rw [List.foldl_cons]
      refine ih (submitAction st a) ?_
      unfold submitAction EventQueue.enqueue
      simp only [Event.isTime]
      exact List.mem_cons_of_mem _ he

/-- Enqueuing a `ResultEvent` raises the count for its race by one. -/
theorem resultCount_enqueue_result {q : EventQueue} {rid rid2 : Nat} {ts : Time} :
    resultCount (q.enqueue (.result rid2 ts)).entries rid =
      resultCount q.entries rid + (if rid2 = rid then 1 else 0) := by
  unfold EventQueue.enqueue
  simp only [Event.isTime]
  unfold resultCount
  by_cases h : rid2 = rid
  · simp [List.filter_cons, h]
  · simp [List.filter_cons, h]

/-- Processing a payoff `DataEvent` settles the race against the static
payoff records and enqueues exactly one `ResultEvent` (timestamped with
the advanced clock) when at least one position settled, none otherwise. -/
theorem handleData_payoff_spec {σ : Type} (strat : Strategy σ) (race : Race)
    (payload : List Payoff) (t : Time) (st st₂ : EngineState σ)
    (h : handleData strat .payoff race payload t st = .ok st₂) :
    ∃ settled bet₂,
      st.bet.settleRace st.dataRepo race.race_id = .ok (settled, bet₂) ∧
      st₂.bet = bet₂ ∧
      st₂.clock = max st.clock t ∧
      (∀ rid, resultCount st₂.queue.entries rid =
        resultCount st.queue.entries rid +
          (if ¬ settled.isEmpty ∧ race.race_id = rid then 1 else 0)) ∧
      (¬ settled.isEmpty →
        ∃ o, (max st.clock t, o, Event.result race.race_id (max st.clock t)) ∈
          st₂.queue.entries) := by
  unfold handleData at h
  simp only [if_true] at h
  set A := applyActions
    { st with clock := max st.clock t,
              strat := (strat.on_data st.strat DataKind.payoff race t
                (st.dataRepo.getPayoffs race.race_id)).1 }
    (strat.on_data st.strat DataKind.payoff race t
      (st.dataRepo.getPayoffs race.race_id)).2 with hA
  have hpres := applyActions_preserves
    ((strat.on_data st.strat DataKind.payoff race t
      (st.dataRepo.getPayoffs race.race_id)).2)
    { st with clock := max st.clock t,
              strat := (strat.on_data st.strat DataKind.payoff race t
                (st.dataRepo.getPayoffs race.race_id)).1 }
  rw [← hA] at hpres
  obtain ⟨hbet, hstrat, hclock, hdata, hcount⟩ := hpres
  dsimp only at hbet hstrat hclock hdata hcount
  cases hsr : A.bet.settleRace A.dataRepo race.race_id with
  | error e =>
      rw [hsr] at h
      cases h
  | ok p =>
      obtain ⟨settled, bet₂⟩ := p
      rw [hsr] at h
      dsimp only at h
      rw [hbet, hdata] at hsr
      by_cases hemp : settled.isEmpty
      · rw [if_pos hemp] at h
        cases h
        refine ⟨settled, bet₂, hsr, rfl, hclock, ?_, ?_⟩
        · intro rid
          show resultCount A.queue.entries rid = _
          rw [hcount rid]
          simp [hemp]
        · intro hne
          exact absurd hemp hne
      · rw [if_neg hemp] at h
        cases h
        refine ⟨settled, bet₂, hsr, rfl, hclock, ?_, ?_⟩
        · intro rid
          show resultCount (A.queue.enqueue (Event.result race.race_id A.clock)).entries rid = _
          rw [resultCount_enqueue_result, hcount rid]
          simp [hemp]
        · intro _
          refine ⟨A.queue.counter, ?_⟩
          show (st.clock ⊔ t, A.queue.counter, Event.result race.race_id (st.clock ⊔ t)) ∈
            (A.queue.enqueue (Event.result race.race_id A.clock)).entries
          unfold EventQueue.enqueue
          simp only [Event.isTime]
          rw [hclock]
          exact List.mem_cons_self _ _



/-- Processing an accepted confirmation confirms the pending bet, attaches
the position to the event the strategy receives, immediately settles the
race, and enqueues exactly one `ResultEvent` (timestamped with the
advanced clock) when anything settled. -/
theorem handleBetConf_spec {σ : Type} (strat : Strategy σ) (conf : BetConf)
    (t : Time) (st st₂ : EngineState σ)
    (hacc : conf.accepted = true)
    (h : handleBetConf strat conf t st = .ok st₂) :
    ∃ position bet₂ settled bet₃,
      st.bet.confirmBet { conf with placed_at := t } = .ok (position, bet₂) ∧
      bet₂.settleRace st.dataRepo conf.race_id = .ok (settled, bet₃) ∧
      st₂.bet = bet₃ ∧
      st₂.clock = max st.clock t ∧
      st₂.strat = (strat.on_bet st.strat
        { conf with placed_at := t, position := some position } t).1 ∧
      (∀ rid, resultCount st₂.queue.entries rid =
        resultCount st.queue.entries rid +
          (if ¬ settled.isEmpty ∧ conf.race_id = rid then 1 else 0)) ∧
      (¬ settled.isEmpty →
        ∃ o, (max st.clock t, o, Event.result conf.race_id (max st.clock t)) ∈
          st₂.queue.entries) := by
  obtain ⟨bid, rid2, bt, combo, stk, pa, acc, msg, pos⟩ := conf
  dsimp only at hacc
  subst hacc
  unfold handleBetConf at h
  dsimp only at h
  simp only [if_true] at h
  set confT : BetConf :=
    { bet_id := bid, race_id := rid2, bet_type := bt, combination := combo,
      stake := stk, placed_at := t, accepted := true, message := msg,
      position := pos } with hconfT
  cases hcb : st.bet.confirmBet confT with
  | error e =>
      rw [hcb] at h
      cases h
  | ok p =>
      obtain ⟨position, bet₂⟩ := p
      rw [hcb] at h
      dsimp only at h
      cases hsr : bet₂.settleRace st.dataRepo rid2 with
      | error e =>
          rw [hsr] at h
          cases h
      | ok q =>
          obtain ⟨settled, bet₃⟩ := q
          rw [hsr] at h
          dsimp only at h
          by_cases hemp : settled.isEmpty
          · rw [if_pos hemp] at h
            dsimp only at h
            injection h with h2
            subst h2
            refine ⟨position, bet₂, settled, bet₃, rfl, hsr, ?_, ?_, ?_, ?_, ?_⟩
            · exact (applyActions_preserves _ _).1
            · exact (applyActions_preserves _ _).2.2.1
            · exact (applyActions_preserves _ _).2.1
            · intro rid
              rw [(applyActions_preserves _ _).2.2.2.2 rid]
              dsimp only
              simp [hemp]
            · intro hne
              exact absurd hemp hne
          · rw [if_neg hemp] at h
            dsimp only at h
            injection h with h2
            subst h2
            refine ⟨position, bet₂, settled, bet₃, rfl, hsr, ?_, ?_, ?_, ?_, ?_⟩
            · exact (applyActions_preserves _ _).1
            · exact (applyActions_preserves _ _).2.2.1
            · exact (applyActions_preserves _ _).2.1
            · intro rid
              rw [(applyActions_preserves _ _).2.2.2.2 rid]
              dsimp only
              rw [resultCount_enqueue_result]
              simp [hemp]
            · intro _
              refine ⟨st.queue.counter, ?_⟩
              refine applyActions_mem _ _ _ ?_
              dsimp only
              unfold EventQueue.enqueue
              simp only [Event.isTime]
              exact List.mem_cons_self _ _

/-- C1 amended: when the engine processes an accepted
`BetConfirmationEvent` it calls `confirm_bet`, attaches the resulting
position to the event the strategy receives, and ALWAYS immediately
calls `settle_race` for the race — whether or not the payoff publish
time has passed — enqueuing a `ResultEvent` timestamped with the clock
at confirmation exactly when at least one position settles. -/
theorem c1_amended_settles_at_confirmation {σ : Type} (strat : Strategy σ)
    (conf : BetConf) (t : Time) (st st₂ : EngineState σ)
    (hacc : conf.accepted = true)
    (h : handleBetConf strat conf t st = .ok st₂) :
    ∃ position bet₂ settled bet₃,
      st.bet.confirmBet { conf with placed_at := t } = .ok (position, bet₂) ∧
      bet₂.settleRace st.dataRepo conf.race_id = .ok (settled, bet₃) ∧
      st₂.bet = bet₃ ∧
      st₂.strat = (strat.on_bet st.strat
        { conf with placed_at := t, position := some position } t).1 ∧
      (∀ rid, resultCount st₂.queue.entries rid =
        resultCount st.queue.entries rid +
          (if ¬ settled.isEmpty ∧ conf.race_id = rid then 1 else 0)) ∧
      (¬ settled.isEmpty →
        ∃ o, (max st.clock t, o, Event.result conf.race_id (max st.clock t)) ∈
          st₂.queue.entries) := by
  obtain ⟨position, bet₂, settled, bet₃, h1, h2, h3, h4, h5, h6, h7⟩ :=
    handleBetConf_spec strat conf t st st₂ hacc h
  exact ⟨position, bet₂, settled, bet₃, h1, h2, h3, h5, h6, h7⟩

set_option maxRecDepth 100000 in
attribute [local semireducible] Rat.add Rat.mul Rat.sub Rat.inv in
/-- Witness for C1: a state holding one pending confirmation for a race
whose payoff publishes later (at 2700) settles the bet at the
confirmation dispatch itself and enqueues the `ResultEvent` at the
confirmation clock. -/
theorem c1_witness :
    ∃ position bet₂ settled bet₃,
      preConfState.bet.confirmBet { confEvent1 with placed_at := 0 } = .ok (position, bet₂) ∧
      bet₂.settleRace preConfState.dataRepo confEvent1.race_id = .ok (settled, bet₃) ∧
      postConfState.bet = bet₃ ∧
      postConfState.strat = (s6Strategy.on_bet preConfState.strat
        { confEvent1 with placed_at := 0, position := some position } 0).1 ∧
      (∀ rid, resultCount postConfState.queue.entries rid =
        resultCount preConfState.queue.entries rid +
          (if ¬ settled.isEmpty ∧ confEvent1.race_id = rid then 1 else 0)) ∧
      (¬ settled.isEmpty →
        ∃ o, (max preConfState.clock 0, o,
          Event.result confEvent1.race_id (max preConfState.clock 0)) ∈
            postConfState.queue.entries) :=
  c1_amended_settles_at_confirmation s6Strategy confEvent1 0 preConfState
    postConfState rfl (by rfl)

/-- C3 amended: exactly one `ResultEvent` for a race is enqueued per
event dispatch whose `settle_race` call settles at least one position —
a payoff `DataEvent` dispatch or an accepted confirmation dispatch — and
none when nothing settles; since every confirmation dispatch settles the
tracked positions regardless of prior payoff publication, a race with
bets confirmed in k separate dispatches yields k `ResultEvent`s over a
run, not exactly one. -/
theorem c3_amended_one_result_per_settling_dispatch :
    (∀ {σ : Type} (strat : Strategy σ) (race : Race) (payload : List Payoff)
      (t : Time) (st st₂ : EngineState σ),
      handleData strat .payoff race payload t st = .ok st₂ →
      ∃ settled bet₂,
        st.bet.settleRace st.dataRepo race.race_id = .ok (settled, bet₂) ∧
        ∀ rid, resultCount st₂.queue.entries rid =
          resultCount st.queue.entries rid +
            (if ¬ settled.isEmpty ∧ race.race_id = rid then 1 else 0)) ∧
    (∀ {σ : Type} (strat : Strategy σ) (conf : BetConf) (t : Time)
      (st st₂ : EngineState σ),
      conf.accepted = true →
      handleBetConf strat conf t st = .ok st₂ →
      ∃ position bet₂ settled bet₃,
        st.bet.confirmBet { conf with placed_at := t } = .ok (position, bet₂) ∧
        bet₂.settleRace st.dataRepo conf.race_id = .ok (settled, bet₃) ∧
        ∀ rid, resultCount st₂.queue.entries rid =
          resultCount st.queue.entries rid +
            (if ¬ settled.isEmpty ∧ conf.race_id = rid then 1 else 0)) := by
  constructor
  · intro σ strat race payload t st st₂ h
    obtain ⟨settled, bet₂, h1, h2, h3, h4, h5⟩ :=
      handleData_payoff_spec strat race payload t st st₂ h
    exact ⟨settled, bet₂, h1, h4⟩
  · intro σ strat conf t st st₂ hacc h
    obtain ⟨position, bet₂, settled, bet₃, h1, h2, h3, h4, h5, h6, h7⟩ :=
      handleBetConf_spec strat conf t st st₂ hacc h
    exact ⟨position, bet₂, settled, bet₃, h1, h2, h6⟩

set_option maxRecDepth 100000 in
attribute [local semireducible] Rat.add Rat.mul Rat.sub Rat.inv in
/-- Witness for C3: a payoff dispatch over a state with one tracked open
position settles it and enqueues exactly one `ResultEvent` for the race
and none for any other race. -/
theorem c3_witness :
    ∃ settled bet₂,
      prePayoffState.bet.settleRace prePayoffState.dataRepo raceR1.race_id =
        .ok (settled, bet₂) ∧
      ∀ rid, resultCount postPayoffState.queue.entries rid =
        resultCount prePayoffState.queue.entries rid +
          (if ¬ settled.isEmpty ∧ raceR1.race_id = rid then 1 else 0) :=
  c3_amended_one_result_per_settling_dispatch.1 s6Strategy raceR1 [] 2700
    prePayoffState postPayoffState (by rfl)


/-- An assoc-list lookup misses exactly when the key is absent. -/
theorem alGet_eq_none_iff {α : Type} (k : Nat) (l : List (Nat × α)) :
    alGet k l = none ↔ k ∉ l.map (fun e => e.1) := by
  induction l with
  | nil => simp [alGet]
  | cons e rest ih =>
      obtain ⟨k₂, v⟩ := e
      by_cases h : k₂ = k
      · subst h
        simp [alGet]
      · simp [alGet, h, ih, Ne.symm h]

/-- A successful lookup pinpoints a matching entry. -/
theorem alGet_some_mem {α : Type} {k : Nat} {v : α} :
    ∀ {l : List (Nat × α)}, alGet k l = some v → (k, v) ∈ l := by
  intro l
  induction l with
  | nil => intro h; cases h
  | cons e rest ih =>
      obtain ⟨k₂, w⟩ := e
      intro h
      by_cases h2 : k₂ = k
      · subst h2
        simp only [alGet, if_pos rfl] at h
        injection h with h3
        subst h3
        exact List.mem_cons_self _ _
      · simp only [alGet, if_neg h2] at h
        exact List.mem_cons_of_mem _ (ih h)

/-- Writing a fresh key appends the pair at the end. -/
theorem alSet_fresh {α : Type} {k : Nat} (v : α) :
    ∀ {l : List (Nat × α)}, alGet k l = none → alSet k v l = l ++ [(k, v)] := by
  intro l
  induction l with
  | nil => intro _; rfl
  | cons e rest ih =>
      obtain ⟨k₂, w⟩ := e
      intro h
      by_cases h2 : k₂ = k
      · subst h2
        simp [alGet] at h
      · simp only [alGet, if_neg h2] at h
        simp [alSet, h2, ih h]

/-- A successful pop pinpoints the removed entry. -/
theorem alPop_fst_some {α : Type} {k : Nat} {v : α} :
    ∀ {l : List (Nat × α)}, (alPop k l).1 = some v → (k, v) ∈ l := by
  intro l
  induction l with
  | nil => intro h; cases h
  | cons e rest ih =>
      obtain ⟨k₂, w⟩ := e
      intro h
      by_cases h2 : k₂ = k
      · subst h2
        simp only [alPop, if_pos rfl] at h
        injection h with h3
        subst h3
        exact List.mem_cons_self _ _
      · simp only [alPop, if_neg h2] at h
        exact List.mem_cons_of_mem _ (ih h)

/-- What remains after a pop is a sublist of the original dict. -/
theorem alPop_rest_sublist {α : Type} (k : Nat) :
    ∀ l : List (Nat × α), (alPop k l).2.Sublist l := by
  intro l
  induction l with
  | nil => simp [alPop]
  | cons e rest ih =>
      obtain ⟨k₂, w⟩ := e
      by_cases h2 : k₂ = k
      · subst h2
        simp only [alPop, if_pos rfl]
        exact List.sublist_cons_self _ _
      · simp only [alPop, if_neg h2]
        exact List.Sublist.cons₂ _ ih

/-- With distinct keys, no entry remaining after a successful pop carries
the popped key. -/
theorem alPop_rest_key_ne {α : Type} {k : Nat} {v : α} :
    ∀ {l : List (Nat × α)}, (l.map (fun e => e.1)).Nodup →
      (alPop k l).1 = some v → ∀ e ∈ (alPop k l).2, e.1 ≠ k := by
  intro l
  induction l with
  | nil => intro _ h; cases h
  | cons p rest ih =>
      obtain ⟨k₂, w⟩ := p
      intro hnd h e he
      rw [List.map_cons] at hnd
      obtain ⟨hnd1, hnd2⟩ := List.nodup_cons.mp hnd
      by_cases h2 : k₂ = k
      · subst h2
        simp only [alPop, if_pos rfl] at h he
        intro hek
        have : e.1 ∈ rest.map (fun q => q.1) := List.mem_map_of_mem _ he
        rw [hek] at this
        exact hnd1 this
      · simp only [alPop, if_neg h2] at h he
        rcases List.mem_cons.mp he with rfl | he2
        · exact h2
        · exact ih hnd2 h e he2

/-- Popping keeps the remaining keys distinct. -/
theorem alPop_rest_keys_nodup {α : Type} (k : Nat) {l : List (Nat × α)}
    (hnd : (l.map (fun e => e.1)).Nodup) :
    ((alPop k l).2.map (fun e => e.1)).Nodup :=
  List.Nodup.sublist (List.Sublist.map _ (alPop_rest_sublist k l)) hnd

/-- Splitting the ledger sum by status: open stakes plus settled
stake-minus-payout equals the positionwise contribution sum. -/
theorem posSum_split (l : List (Nat × BetPosition)) :
    stakeSum ((l.map (fun e => e.2)).filter (fun pos => pos.status = Status.open)) +
      stakeMinusPayoutSum
        ((l.map (fun e => e.2)).filter (fun pos => pos.status = Status.settled)) =
      posSum l := by
  induction l with
  | nil => simp [stakeSum, stakeMinusPayoutSum, posSum]
  | cons e rest ih =>
      simp only [posSum, stakeSum, stakeMinusPayoutSum, List.map_cons, List.sum_cons,
        List.filter_cons] at ih ⊢
      by_cases h : e.2.status = Status.open
      · rw [if_pos (by simp [h]), if_neg (by simp [h])]
        have hc : posContribution e.2 = e.2.stake := by simp [posContribution, h]
        rw [hc]
        simp only [List.map_cons, List.sum_cons]
        linarith [ih]
      · by_cases h2 : e.2.status = Status.settled
        · rw [if_neg (by simp [h]), if_pos (by simp [h2])]
          have hc : posContribution e.2 = e.2.stake - e.2.payout := by
            simp [posContribution, h, h2]
          rw [hc]
          simp only [List.map_cons, List.sum_cons]
          linarith [ih]
        · rw [if_neg (by simp [h]), if_neg (by simp [h2])]
          have hc : posContribution e.2 = 0 := by simp [posContribution, h, h2]
          rw [hc]
          linarith [ih]

/-- The corrected ledger equation, restated over the raw positions dict. -/
theorem balanced_iff_posSum (p : Portfolio) :
    balancedPortfolio p ↔ p.cash + posSum p.positions = p.initial_bankroll := by
  unfold balancedPortfolio Portfolio.openPositions Portfolio.settledPositions
  rw [add_assoc, posSum_split]

/-- Appending a fresh pair adds its contribution to the ledger sum. -/
theorem posSum_append_single (l : List (Nat × BetPosition)) (k : Nat)
    (q : BetPosition) : posSum (l ++ [(k, q)]) = posSum l + posContribution q := by
  simp [posSum]

/-- `Portfolio.place_bet` on a fresh bet id conserves the ledger sum,
keeps the bankroll, and appends the key. -/
theorem placeBet_portfolio_spec {p : Portfolio} {bid rid : Nat} {bt : Str}
    {comb : List Nat} {stake : Money} {pa : Time} {pos : BetPosition} {p₂ : Portfolio}
    (hfresh : alGet bid p.positions = none)
    (h : p.placeBet bid rid bt comb stake pa = .ok (pos, p₂)) :
    p₂.cash + posSum p₂.positions = p.cash + posSum p.positions ∧
    p₂.initial_bankroll = p.initial_bankroll ∧
    p₂.positions.map (fun e => e.1) = p.positions.map (fun e => e.1) ++ [bid] := by
  unfold Portfolio.placeBet at h
  split at h
  · cases h
  split at h
  · cases h
  dsimp only at h
  injection h with h2
  injection h2 with h3 h4
  subst h3
  subst h4
  rw [alSet_fresh _ hfresh]
  refine ⟨?_, rfl, ?_⟩
  · dsimp only
    rw [posSum_append_single]
    have : posContribution
        { bet_id := bid, race_id := rid, bet_type := bt, combination := comb,
          stake := stake, placed_at := pa, status := .open, payout := 0 } = stake := by
      simp [posContribution]
    rw [this]
    ring
  · simp

/-- Overwriting the first entry of an open position with its settled copy
lowers the ledger sum by the payout and keeps the key sequence. -/
theorem posSum_alSet_settle {k : Nat} {w : Money} :
    ∀ {l : List (Nat × BetPosition)} {pos : BetPosition},
      alGet k l = some pos → pos.status = Status.open →
      posSum (alSet k { pos with status := Status.settled, payout := w } l) =
          posSum l - w ∧
        (alSet k { pos with status := Status.settled, payout := w } l).map
            (fun e => e.1) = l.map (fun e => e.1) := by
  intro l
  induction l with
  | nil => intro pos h _; cases h
  | cons e rest ih =>
      obtain ⟨k₂, u⟩ := e
      intro pos h hopen
      by_cases h2 : k₂ = k
      · subst h2
        simp only [alGet, if_pos rfl] at h
        injection h with h3
        subst h3
        simp only [alSet, eq_self_iff_true, if_true]
        constructor
        · simp only [posSum, List.map_cons, List.sum_cons]
          have ha : posContribution { u with status := Status.settled, payout := w } =
              u.stake - w := by simp [posContribution]
          have hb : posContribution u = u.stake := by simp [posContribution, hopen]
          rw [ha, hb]
          ring
        · simp
      · simp only [alGet, if_neg h2] at h
        simp only [alSet, if_neg h2]
        obtain ⟨ih1, ih2⟩ := ih h hopen
        constructor
        · simp only [posSum, List.map_cons, List.sum_cons]
          simp only [posSum] at ih1
          rw [ih1]
          ring
        · simp only [List.map_cons, ih2]

/-- `Portfolio.settle_bet` conserves the ledger sum, the bankroll, and the
key sequence. -/
theorem settleBet_spec {p : Portfolio} {bid : Nat} {w : Money} {pos₂ : BetPosition}
    {p₂ : Portfolio} (h : p.settleBet bid w = .ok (pos₂, p₂)) :
    p₂.cash + posSum p₂.positions = p.cash + posSum p.positions ∧
    p₂.initial_bankroll = p.initial_bankroll ∧
    p₂.positions.map (fun e => e.1) = p.positions.map (fun e => e.1) := by
  unfold Portfolio.settleBet at h
  cases hg : alGet bid p.positions with
  | none => rw [hg] at h; cases h
  | some position =>
      rw [hg] at h
      dsimp only at h
      split at h
      · cases h
      · rename_i hno
        have hopen : position.status = Status.open := not_not.mp hno
        injection h with h2
        injection h2 with h3 h4
        subst h3
        subst h4
        obtain ⟨hs1, hs2⟩ := posSum_alSet_settle hg hopen
        refine ⟨?_, rfl, hs2⟩
        dsimp only
        rw [hs1]
        ring

/-- The settling loop conserves the ledger sum, the bankroll, and the key
sequence. -/
theorem settleList_spec {payoffs : List Payoff} :
    ∀ {l : List BetPosition} {p : Portfolio} {settled : List BetPosition}
      {p₂ : Portfolio},
      settleList p payoffs l = .ok (settled, p₂) →
      p₂.cash + posSum p₂.positions = p.cash + posSum p.positions ∧
      p₂.initial_bankroll = p.initial_bankroll ∧
      p₂.positions.map (fun e => e.1) = p.positions.map (fun e => e.1) := by
  intro l
  induction l with
  | nil =>
      intro p settled p₂ h
      unfold settleList at h
      injection h with h2
      injection h2 with h3 h4
      subst h4
      exact ⟨rfl, rfl, rfl⟩
  | cons position rest ih =>
      intro p settled p₂ h
      unfold settleList at h
      cases hsb : p.settleBet position.bet_id (calculatePayout position payoffs) with
      | error e => rw [hsb] at h; cases h
      | ok q =>
          obtain ⟨sp, pmid⟩ := q
          rw [hsb] at h
          dsimp only at h
          cases hsl : settleList pmid payoffs rest with
          | error e => rw [hsl] at h; cases h
          | ok q2 =>
              obtain ⟨srest, pfin⟩ := q2
              rw [hsl] at h
              dsimp only at h
              injection h with h2
              injection h2 with h3 h4
              subst h4
              obtain ⟨a1, a2, a3⟩ := settleBet_spec hsb
              obtain ⟨b1, b2, b3⟩ := ih hsl
              exact ⟨b1.trans a1, b2.trans a2, b3.trans a3⟩

/-- `settle_race` preserves the repository invariant and the bankroll. -/
theorem settleRace_betinv {b : SimBettingRepo} {d : SimDataRepo} {rid : Nat}
    {settled : List BetPosition} {b₂ : SimBettingRepo}
    (h : b.settleRace d rid = .ok (settled, b₂)) (hinv : BetInv b) :
    BetInv b₂ ∧ b₂.portfolio.initial_bankroll = b.portfolio.initial_bankroll := by
  unfold SimBettingRepo.settleRace at h
  dsimp only at h
  cases hsl : settleList b.portfolio (d.getPayoffs rid) ((alPop rid b.pending).1.getD [])
      with
  | error e => rw [hsl] at h; cases h
  | ok q =>
      obtain ⟨s2, pfin⟩ := q
      rw [hsl] at h
      dsimp only at h
      injection h with h2
      injection h2 with h3 h4
      subst h3
      subst h4
      obtain ⟨a1, a2, a3⟩ := settleList_spec hsl
      obtain ⟨i1, i2, i3, i4⟩ := hinv
      refine ⟨⟨?_, ?_, ?_, i4⟩, a2⟩
      · rw [balanced_iff_posSum] at i1 ⊢
        dsimp only
        rw [a1, a2, i1]
      · intro e he
        dsimp only at he ⊢
        have hm : e.1 ∈ pfin.positions.map (fun q => q.1) := List.mem_map_of_mem _ he
        rw [a3] at hm
        obtain ⟨e2, he2, heq⟩ := List.mem_map.mp hm
        rw [← heq]
        exact i2 e2 he2
      · intro e he
        obtain ⟨c1, c2, c3⟩ := i3 e he
        refine ⟨c1, c2, ?_⟩
        dsimp only
        rw [a3]
        exact c3

/-- `place_bet` on the repository preserves the invariant and leaves the
portfolio untouched. -/
theorem placeBet_repo_betinv (b : SimBettingRepo) (rid : Nat) (hs : List Nat)
    (stake : Money) (bt : Str) (pa : Time) (hinv : BetInv b) :
    BetInv (b.placeBet rid hs stake bt pa).2 ∧
    (b.placeBet rid hs stake bt pa).2.portfolio = b.portfolio := by
  obtain ⟨i1, i2, i3, i4⟩ := hinv
  unfold SimBettingRepo.placeBet
  dsimp only
  split
  · refine ⟨⟨i1, ?_, ?_, i4⟩, rfl⟩
    · intro e he
      exact Nat.lt_succ_of_lt (i2 e he)
    · intro e he
      obtain ⟨c1, c2, c3⟩ := i3 e he
      exact ⟨c1, Nat.lt_succ_of_lt c2, c3⟩
  split
  · refine ⟨⟨i1, ?_, ?_, i4⟩, rfl⟩
    · intro e he
      exact Nat.lt_succ_of_lt (i2 e he)
    · intro e he
      obtain ⟨c1, c2, c3⟩ := i3 e he
      exact ⟨c1, Nat.lt_succ_of_lt c2, c3⟩
  · have hnotin : b.counter ∉ b.pending_confirmations.map (fun e => e.1) := by
      intro hmem
      obtain ⟨e2, he2, heq⟩ := List.mem_map.mp hmem
      have := (i3 e2 he2).2.1
      omega
    have hget : alGet b.counter b.pending_confirmations = none :=
      (alGet_eq_none_iff _ _).mpr hnotin
    rw [alSet_fresh _ hget]
    refine ⟨⟨i1, ?_, ?_, ?_⟩, rfl⟩
    · intro e he
      exact Nat.lt_succ_of_lt (i2 e he)
    · intro e he
      dsimp only at he
      rcases List.mem_append.mp he with hold | hnew
      · obtain ⟨c1, c2, c3⟩ := i3 e hold
        exact ⟨c1, Nat.lt_succ_of_lt c2, c3⟩
      · have he2 : e = (b.counter,
            { bet_id := b.counter, race_id := rid, bet_type := bt,
              combination := hs, stake := stake, placed_at := pa }) := by
          simpa using hnew
        subst he2
        refine ⟨rfl, Nat.lt_succ_self _, ?_⟩
        intro hmem
        obtain ⟨e2, he2, heq⟩ := List.mem_map.mp hmem
        have := i2 e2 he2
        omega
    · dsimp only
      rw [List.map_append, List.nodup_append]
      refine ⟨i4, List.nodup_singleton _, ?_⟩
      intro a ha hb
      have : a = b.counter := by simpa using hb
      subst this
      exact hnotin ha

/-- `confirm_bet` preserves the repository invariant, the bankroll, and
the bet-id counter. -/
theorem confirmBet_betinv {b : SimBettingRepo} {ev : BetConf} {pos : BetPosition}
    {b₂ : SimBettingRepo} (h : b.confirmBet ev = .ok (pos, b₂)) (hinv : BetInv b) :
    BetInv b₂ ∧ b₂.portfolio.initial_bankroll = b.portfolio.initial_bankroll ∧
    b₂.counter = b.counter := by
  obtain ⟨i1, i2, i3, i4⟩ := hinv
  unfold SimBettingRepo.confirmBet at h
  cases hp : alPop ev.bet_id b.pending_confirmations with
  | mk first rem =>
      rw [hp] at h
      cases first with
      | none =>
          dsimp only at h
          cases h
      | some pendingBet =>
          dsimp only at h
          have hfst : (alPop ev.bet_id b.pending_confirmations).1 = some pendingBet := by
            rw [hp]
          have hsnd : (alPop ev.bet_id b.pending_confirmations).2 = rem := by
            rw [hp]
          have hmem : (ev.bet_id, pendingBet) ∈ b.pending_confirmations :=
            alPop_fst_some hfst
          obtain ⟨hkey, hlt, hnotin⟩ := i3 _ hmem
          have hfresh : alGet pendingBet.bet_id b.portfolio.positions = none := by
            rw [alGet_eq_none_iff, hkey]
            exact hnotin
          cases hpb : b.portfolio.placeBet pendingBet.bet_id pendingBet.race_id
              pendingBet.bet_type pendingBet.combination pendingBet.stake
              pendingBet.placed_at with
          | error e =>
              rw [hpb] at h
              cases h
          | ok q =>
              obtain ⟨position, portfolio₂⟩ := q
              rw [hpb] at h
              dsimp only at h
              injection h with h2
              injection h2 with h3 h4
              subst h3
              subst h4
              obtain ⟨a1, a2, a3⟩ := placeBet_portfolio_spec hfresh hpb
              refine ⟨⟨?_, ?_, ?_, ?_⟩, a2, rfl⟩
              · rw [balanced_iff_posSum] at i1 ⊢
                dsimp only
                rw [a1, a2, i1]
              · intro e he
                dsimp only at he ⊢
                have hm : e.1 ∈ portfolio₂.positions.map (fun q => q.1) :=
                  List.mem_map_of_mem _ he
                rw [a3] at hm
                rcases List.mem_append.mp hm with hold | hnew
                · obtain ⟨e2, he2, heq⟩ := List.mem_map.mp hold
                  rw [← heq]
                  exact i2 e2 he2
                · have he1 : e.1 = pendingBet.bet_id := by simpa using hnew
                  rw [he1, hkey]
                  exact hlt
              · intro e he
                dsimp only at he ⊢
                have hesub : e ∈ b.pending_confirmations :=
                  (alPop_rest_sublist ev.bet_id b.pending_confirmations).subset
                    (by rw [hsnd]; exact he)
                obtain ⟨c1, c2, c3⟩ := i3 e hesub
                refine ⟨c1, c2, ?_⟩
                rw [a3]
                intro hmem2
                rcases List.mem_append.mp hmem2 with hold | hnew
                · exact c3 hold
                · have he1 : e.1 = pendingBet.bet_id := by simpa using hnew
                  have hne : e.1 ≠ ev.bet_id := by
                    apply alPop_rest_key_ne i4 hfst
                    rw [hsnd]
                    exact he
                  exact hne (by rw [he1, hkey])
              · dsimp only
                rw [← hsnd]
                exact alPop_rest_keys_nodup _ i4

/-- `_schedule_next_tick` never touches the betting repository, the clock,
or the dispatch log. -/
theorem scheduleNextTick_skeleton {σ : Type} (st : EngineState σ) :
    (scheduleNextTick st).bet = st.bet ∧ (scheduleNextTick st).clock = st.clock ∧
    (scheduleNextTick st).popped = st.popped := by
  unfold scheduleNextTick
  dsimp only
  repeat' split
  all_goals exact ⟨rfl, rfl, rfl⟩

/-- Submitting hook bets never touches the dispatch log. -/
theorem applyActions_popped {σ : Type} (acts : List Action) (st : EngineState σ) :
    (applyActions st acts).popped = st.popped := by
  induction acts generalizing st with
  | nil => rfl
  | cons a rest ih =>
      unfold applyActions at ih ⊢
      rw [List.foldl_cons]
      exact ih (submitAction st a)

/-- One dispatched event preserves the repository invariant and the
bankroll. -/
theorem handleEvent_betinv {σ : Type} {strat : Strategy σ} {ev : Event} {t : Time}
    {st st₂ : EngineState σ} (h : handleEvent strat ev t st = .ok st₂)
    (hinv : BetInv st.bet) :
    BetInv st₂.bet ∧
      st₂.bet.portfolio.initial_bankroll = st.bet.portfolio.initial_bankroll := by
  cases ev with
  | time name sf =>
      unfold handleEvent handleTime at h
      dsimp only at h
      split at h
      · cases h
      · injection h with h2
        subst h2
        rw [(scheduleNextTick_skeleton _).1]
        dsimp only
        rw [(applyActions_preserves _ _).1]
        exact ⟨hinv, rfl⟩
  | data kind race av payload =>
      cases kind with
      | race =>
          unfold handleEvent handleData at h
          dsimp only at h
          injection h with h2
          subst h2
          rw [(applyActions_preserves _ _).1]
          exact ⟨hinv, rfl⟩
      | payoff =>
          unfold handleEvent at h
          dsimp only at h
          obtain ⟨settled, bet₂, hsr, hbet, hclock, hcount, hmemq⟩ :=
            handleData_payoff_spec strat race payload t st st₂ h
          obtain ⟨binv, bini⟩ := settleRace_betinv hsr hinv
          rw [hbet]
          exact ⟨binv, bini⟩
  | betRequest rid2 bt combo stk pa2 =>
      unfold handleEvent at h
      dsimp only at h
      injection h with h2
      subst h2
      unfold handleBetRequest
      dsimp only
      obtain ⟨binv, hport⟩ := placeBet_repo_betinv st.bet rid2 combo stk bt t hinv
      exact ⟨binv, by rw [hport]⟩
  | betConfirmation conf =>
      cases hacc : conf.accepted with
      | true =>
          unfold handleEvent at h
          dsimp only at h
          obtain ⟨position, bet₂, settled, bet₃, hcb, hsr, hbet, hclock, hstrat,
            hcount, hmemq⟩ := handleBetConf_spec strat conf t st st₂ hacc h
          obtain ⟨binv2, bini2, _⟩ := confirmBet_betinv hcb hinv
          obtain ⟨binv3, bini3⟩ := settleRace_betinv hsr binv2
          rw [hbet]
          exact ⟨binv3, by rw [bini3, bini2]⟩
      | false =>
          unfold handleEvent handleBetConf at h
          dsimp only at h
          simp only [hacc, Bool.false_eq_true, if_false] at h
          injection h with h2
          subst h2
          rw [(applyActions_preserves _ _).1]
          exact ⟨hinv, rfl⟩
  | result rid2 sa =>
      unfold handleEvent handleResult at h
      dsimp only at h
      injection h with h2
      subst h2
      rw [(applyActions_preserves _ _).1]
      exact ⟨hinv, rfl⟩

/-- One engine dispatch preserves the repository invariant and the
bankroll. -/
theorem engineStep_betinv {σ : Type} {strat : Strategy σ} {st st₂ : EngineState σ}
    (h : engineStep strat st = .ok (some st₂)) (hinv : BetInv st.bet) :
    BetInv st₂.bet ∧
      st₂.bet.portfolio.initial_bankroll = st.bet.portfolio.initial_bankroll := by
  unfold engineStep at h
  rcases popMin_spec st.queue.entries with hnil | ⟨m, r, hpop, hperm, hmin⟩
  · rw [hnil] at h
    dsimp only [popMin] at h
    cases h
  · rw [hpop] at h
    dsimp only at h
    split at h
    · cases h
    · rename_i st3 heq
      injection h with h2
      injection h2 with h3
      subst h3
      have hres := handleEvent_betinv heq hinv
      exact hres

/-- Any number of engine dispatches preserves the repository invariant
and the bankroll. -/
theorem engineSteps_betinv {σ : Type} {strat : Strategy σ} :
    ∀ {n : Nat} {st st₂ : EngineState σ},
      engineSteps strat n st = .ok st₂ → BetInv st.bet →
      BetInv st₂.bet ∧
        st₂.bet.portfolio.initial_bankroll = st.bet.portfolio.initial_bankroll := by
  intro n
  induction n with
  | zero =>
      intro st st₂ h hinv
      unfold engineSteps at h
      injection h with h2
      subst h2
      exact ⟨hinv, rfl⟩
  | succ n ih =>
      intro st st₂ h hinv
      unfold engineSteps at h
      cases hs : engineStep strat st with
      | error e =>
          rw [hs] at h
          cases h
      | ok o =>
          rw [hs] at h
          cases o with
          | none =>
              dsimp only at h
              injection h with h2
              subst h2
              exact ⟨hinv, rfl⟩
          | some st3 =>
              dsimp only at h
              obtain ⟨b1, b2⟩ := engineStep_betinv hs hinv
              obtain ⟨c1, c2⟩ := ih h b1
              exact ⟨c1, c2.trans b2⟩

/-- Seeding the data events of one race never touches the betting
repository, the clock, or the dispatch log. -/
theorem seedRace_skeleton {σ : Type} (now : Time) (st : EngineState σ) (race : Race) :
    (seedRace now st race).bet = st.bet ∧ (seedRace now st race).clock = st.clock ∧
    (seedRace now st race).popped = st.popped := by
  unfold seedRace
  dsimp only
  split <;> exact ⟨rfl, rfl, rfl⟩

/-- Seeding all races never touches the betting repository, the clock, or
the dispatch log. -/
theorem foldl_seedRace_skeleton {σ : Type} (now : Time) :
    ∀ (races : List Race) (st : EngineState σ),
      (races.foldl (seedRace now) st).bet = st.bet ∧
      (races.foldl (seedRace now) st).clock = st.clock ∧
      (races.foldl (seedRace now) st).popped = st.popped := by
  intro races
  induction races with
  | nil => intro st; exact ⟨rfl, rfl, rfl⟩
  | cons r rest ih =>
      intro st
      rw [List.foldl_cons]
      obtain ⟨a1, a2, a3⟩ := ih (seedRace now st r)
      obtain ⟨b1, b2, b3⟩ := seedRace_skeleton now st r
      exact ⟨a1.trans b1, a2.trans b2, a3.trans b3⟩

/-- The invariant holds for a fresh repository. -/
theorem betInv_create (bankroll : Money) :
    BetInv (SimBettingRepo.create (Portfolio.create bankroll)) := by
  refine ⟨?_, ?_, ?_, ?_⟩
  · rw [balanced_iff_posSum]
    simp [SimBettingRepo.create, Portfolio.create, posSum]
  · intro e he
    simp [SimBettingRepo.create, Portfolio.create] at he
  · intro e he
    simp [SimBettingRepo.create] at he
  · simp [SimBettingRepo.create]

/-- The run seeding establishes the repository invariant with the
requested bankroll. -/
theorem initRun_betinv {σ : Type} {strat : Strategy σ} {s0 : σ} {d : SimDataRepo}
    {bankroll : Money} {scheds : List (Nat × SchedMode)} {tick now0 : Time}
    {st : EngineState σ} (h : initRun strat s0 d bankroll scheds tick now0 = .ok st) :
    BetInv st.bet ∧ st.bet.portfolio.initial_bankroll = bankroll := by
  unfold initRun at h
  dsimp only at h
  split at h
  · cases h
  · injection h with h2
    subst h2
    dsimp only
    rw [(foldl_seedRace_skeleton _ _ _).1]
    dsimp only
    rw [(applyActions_preserves _ _).1]
    exact ⟨betInv_create bankroll, rfl⟩

/-- C2 amended: at every point between event dispatches of a run,
portfolio cash plus the open stakes plus the settled stake-minus-payout
sum equals the initial bankroll; the pending stakes of the claim do NOT
enter the conserved sum, because `place_bet` reserves a pending stake
without deducting cash, so the claimed equation (which also adds the
pending stakes) holds exactly when no reservation is pending. -/
theorem c2_amended_ledger_without_pending {σ : Type} (strat : Strategy σ) (s0 : σ)
    (d : SimDataRepo) (bankroll : Money) (scheds : List (Nat × SchedMode))
    (tick now0 : Time) (n : Nat) (st : EngineState σ)
    (h : (initRun strat s0 d bankroll scheds tick now0).bind (engineSteps strat n) =
      .ok st) :
    balancedPortfolio st.bet.portfolio ∧
    st.bet.portfolio.initial_bankroll = bankroll ∧
    (claimCashEquation st.bet ↔
      ((st.bet.pending_confirmations.map (fun e => e.2.stake)).sum = 0)) := by
  cases hi : initRun strat s0 d bankroll scheds tick now0 with
  | error e =>
      rw [hi] at h
      simp only [Except.bind] at h
      cases h
  | ok st1 =>
      rw [hi] at h
      simp only [Except.bind] at h
      obtain ⟨i1, i2⟩ := initRun_betinv hi
      obtain ⟨b1, b2⟩ := engineSteps_betinv h i1
      refine ⟨b1.1, b2.trans i2, ?_⟩
      have hbal := b1.1
      unfold balancedPortfolio at hbal
      unfold claimCashEquation
      constructor
      · intro hc
        linarith
      · intro hz
        linarith

set_option maxRecDepth 100000 in
attribute [local semireducible] Rat.add Rat.mul Rat.sub Rat.inv in
/-- Witness for C2: after three dispatches of the S6 run a stake-100
reservation is pending; the corrected ledger holds with bankroll 1000 and
the claimed equation reduces to the pending sum being zero. -/
theorem c2_witness :
    balancedPortfolio (s6Run 3).bet.portfolio ∧
    (s6Run 3).bet.portfolio.initial_bankroll = 1000 ∧
    (claimCashEquation (s6Run 3).bet ↔
      (((s6Run 3).bet.pending_confirmations.map (fun e => e.2.stake)).sum = 0)) :=
  c2_amended_ledger_without_pending s6Strategy false s6Repo 1000 [] 1 0 3 (s6Run 3)
    (by rfl)

/-- Membership after `_enqueue`: the new entry carries the event timestamp,
everything else was already queued. -/
theorem mem_enqueue {q : EventQueue} {ev : Event} {e : QEntry}
    (he : e ∈ (q.enqueue ev).entries) : e.1 = eventTime ev ∨ e ∈ q.entries := by
  unfold EventQueue.enqueue at he
  split at he
  · rcases List.mem_cons.mp he with rfl | h2
    · exact Or.inl rfl
    · exact Or.inr h2
  · rcases List.mem_cons.mp he with rfl | h2
    · exact Or.inl rfl
    · exact Or.inr h2

/-- Membership after `_enqueue_front`. -/
theorem mem_enqueueFront {q : EventQueue} {ev : Event} {e : QEntry}
    (he : e ∈ (q.enqueueFront ev).entries) : e.1 = eventTime ev ∨ e ∈ q.entries := by
  unfold EventQueue.enqueueFront at he
  rcases List.mem_cons.mp he with rfl | h2
  · exact Or.inl rfl
  · exact Or.inr h2

/-- The minimum of a Python list is one of its members. -/
theorem listMin_mem : ∀ {l : List Time} {m : Time}, listMin l = some m → m ∈ l := by
  intro l
  induction l with
  | nil => intro m h; cases h
  | cons t ts ih =>
      intro m h
      simp only [listMin] at h
      injection h with h2
      cases hts : listMin ts with
      | none =>
          rw [hts] at h2
          dsimp only at h2
          subst h2
          exact List.mem_cons_self _ _
      | some m2 =>
          rw [hts] at h2
          dsimp only at h2
          rcases min_choice t m2 with hmin | hmin
          · rw [hmin] at h2
            subst h2
            exact List.mem_cons_self _ _
          · rw [hmin] at h2
            subst h2
            exact List.mem_cons_of_mem _ (ih hts)

/-- Extending a chronological list by an upper bound keeps it
chronological. -/
theorem chain_le_append_singleton {l : List Time} {x : Time}
    (hch : List.Chain' (fun a b => a ≤ b) l) (hall : ∀ y ∈ l, y ≤ x) :
    List.Chain' (fun a b => a ≤ b) (l ++ [x]) := by
  rw [List.chain'_append]
  refine ⟨hch, List.chain'_singleton x, ?_⟩
  intro y hy z hz
  have hzx : x = z := by simpa using hz
  subst hzx
  obtain ⟨hne, hy2⟩ := List.mem_getLast?_eq_getLast hy
  rw [hy2]
  exact hall _ (List.getLast_mem hne)

/-- A submitted bet request is queued at or after the clock when its
explicit timestamp (if any) is not in the past. -/
theorem submitAction_bound {σ : Type} {st : EngineState σ} {a : Action} {c : Time}
    (hcl : st.clock = c) (ha : ActionOk c a)
    (hq : ∀ e ∈ st.queue.entries, c ≤ e.1) :
    ∀ e ∈ (submitAction st a).queue.entries, c ≤ e.1 := by
  intro e he
  unfold submitAction at he
  dsimp only at he
  rcases mem_enqueue he with h1 | h2
  · rw [h1]
    dsimp only [eventTime]
    cases hpa : a.placed_at with
    | none =>
        dsimp only [Option.getD]
        exact le_of_eq hcl.symm
    | some p =>
        dsimp only [Option.getD]
        exact ha p hpa
  · exact hq e h2

/-- All bet requests of a hook land at or after the clock when none is
back-dated. -/
theorem applyActions_bound {σ : Type} :
    ∀ (acts : List Action) (st : EngineState σ) (c : Time), st.clock = c →
      ActsOk c acts → (∀ e ∈ st.queue.entries, c ≤ e.1) →
      ∀ e ∈ (applyActions st acts).queue.entries, c ≤ e.1 := by
  intro acts
  induction acts with
  | nil => intro st c _ _ hq e he; exact hq e he
  | cons a rest ih =>
      intro st c hcl hok hq
      unfold applyActions
      rw [List.foldl_cons]
      have hsa := submitAction_bound hcl (hok a (List.mem_cons_self _ _)) hq
      exact ih (submitAction st a) c hcl (fun b hb => hok b (List.mem_cons_of_mem _ hb))
        hsa

/-- `_schedule_next_tick` only enqueues a tick strictly after the clock, so
a queue bounded below by the clock stays bounded. -/
theorem scheduleNextTick_queue_bound {σ : Type} (st : EngineState σ) (c : Time)
    (hcl : st.clock = c) (hq : ∀ e ∈ st.queue.entries, c ≤ e.1) :
    ∀ e ∈ (scheduleNextTick st).queue.entries, c ≤ e.1 := by
  unfold scheduleNextTick
  dsimp only
  split
  · exact hq
  · split
    · exact hq
    · rename_i ntt hmin
      have hntt : c < ntt := by
        have hmem := listMin_mem hmin
        rcases List.mem_append.mp hmem with hA | hB
        · obtain ⟨e2, he2, heq⟩ := List.mem_map.mp hA
          obtain ⟨hein, hcond⟩ := List.mem_filter.mp he2
          simp only [Bool.and_eq_true, decide_eq_true_eq] at hcond
          rw [← heq, ← hcl]
          exact hcond.1
        · obtain ⟨s, hs, heq⟩ := List.mem_filterMap.mp hB
          cases hnd : s.next_due with
          | none =>
              rw [hnd] at heq
              cases heq
          | some dd =>
              rw [hnd] at heq
              dsimp only at heq
              split at heq
              · rename_i hlt
                injection heq with h3
                subst h3
                rw [← hcl]
                exact hlt
              · cases heq
      split
      · exact hq
      · split
        · split
          · exact hq
          · intro e he
            dsimp only at he
            rcases mem_enqueue he with h1 | h2
            · rw [h1]
              exact le_of_lt hntt
            · exact hq e h2
        · intro e he
          dsimp only at he
          rcases mem_enqueue he with h1 | h2
          · rw [h1]
            exact le_of_lt hntt
          · exact hq e h2

/-- The confirmation returned by the repository carries the requested
`placed_at`. -/
theorem placeBet_conf_placed_at (b : SimBettingRepo) (rid : Nat) (hs : List Nat)
    (stake : Money) (bt : Str) (pa : Time) :
    (b.placeBet rid hs stake bt pa).1.placed_at = pa := by
  unfold SimBettingRepo.placeBet
  dsimp only
  split
  · rfl
  split
  · rfl
  · rfl

/-- One dispatch at timestamp `t` of a never-back-dating strategy keeps
every queued entry at or after `t`, leaves the clock at `t`, and does not
touch the dispatch log. -/
theorem handleEvent_mono {σ : Type} {strat : Strategy σ} (hgood : GoodStrategy strat)
    {ev : Event} {t : Time} {st st₂ : EngineState σ}
    (h : handleEvent strat ev t st = .ok st₂) (hct : st.clock ≤ t)
    (hq : ∀ e ∈ st.queue.entries, t ≤ e.1) :
    (∀ e ∈ st₂.queue.entries, t ≤ e.1) ∧ st₂.clock = t ∧ st₂.popped = st.popped := by
  cases ev with
  | time name sf =>
      unfold handleEvent handleTime at h
      dsimp only at h
      rw [max_eq_right hct] at h
      split at h
      · cases h
      · injection h with h2
        subst h2
        refine ⟨?_, ?_, ?_⟩
        · apply scheduleNextTick_queue_bound _ t
          · exact (applyActions_preserves _ _).2.2.1
          · apply applyActions_bound _ _ t rfl (hgood.2.1 st.strat t)
            exact hq
        · exact ((scheduleNextTick_skeleton _).2.1).trans
            ((applyActions_preserves _ _).2.2.1)
        · exact ((scheduleNextTick_skeleton _).2.2).trans (applyActions_popped _ _)
  | data kind race av payload =>
      cases kind with
      | race =>
          unfold handleEvent handleData at h
          dsimp only at h
          rw [max_eq_right hct] at h
          injection h with h2
          subst h2
          refine ⟨?_, ?_, ?_⟩
          · apply applyActions_bound _ _ t rfl (hgood.2.2.1 st.strat DataKind.race race t _)
            exact hq
          · exact (applyActions_preserves _ _).2.2.1
          · exact applyActions_popped _ _
      | payoff =>
          unfold handleEvent handleData at h
          dsimp only at h
          rw [max_eq_right hct] at h
          split at h
          · cases h
          · rename_i settled bet₂ hsr
            split at h
            · injection h with h2
              subst h2
              refine ⟨?_, ?_, ?_⟩
              · apply applyActions_bound _ _ t rfl
                  (hgood.2.2.1 st.strat DataKind.payoff race t _)
                exact hq
              · exact (applyActions_preserves _ _).2.2.1
              · exact applyActions_popped _ _
            · injection h with h2
              subst h2
              refine ⟨?_, ?_, ?_⟩
              · intro e he
                dsimp only at he
                rcases mem_enqueue he with h1 | h2b
                · rw [h1]
                  dsimp only [eventTime]
                  exact le_of_eq (by rw [(applyActions_preserves _ _).2.2.1])
                · refine applyActions_bound _ _ t ?_ ?_ ?_ e h2b
                  · rfl
                  · exact hgood.2.2.1 st.strat DataKind.payoff race t _
                  · exact hq
              · exact (applyActions_preserves _ _).2.2.1
              · exact applyActions_popped _ _
  | betRequest rid2 bt combo stk pa2 =>
      unfold handleEvent handleBetRequest at h
      dsimp only at h
      rw [max_eq_right hct] at h
      injection h with h2
      subst h2
      refine ⟨?_, rfl, rfl⟩
      intro e he
      dsimp only at he
      rcases mem_enqueueFront he with h1 | h2
      · rw [h1]
        dsimp only [eventTime]
        rw [placeBet_conf_placed_at]
      · exact hq e h2
  | betConfirmation conf =>
      cases hacc : conf.accepted with
      | false =>
          unfold handleEvent handleBetConf at h
          dsimp only at h
          rw [max_eq_right hct] at h
          simp only [hacc, Bool.false_eq_true, if_false] at h
          injection h with h2
          subst h2
          refine ⟨?_, ?_, ?_⟩
          · apply applyActions_bound _ _ t rfl (hgood.2.2.2.1 st.strat _ t)
            exact hq
          · exact (applyActions_preserves _ _).2.2.1
          · exact applyActions_popped _ _
      | true =>
          unfold handleEvent handleBetConf at h
          dsimp only at h
          rw [max_eq_right hct] at h
          simp only [hacc, eq_self_iff_true, if_true] at h
          split at h
          · cases h
          · rename_i position bet₂ hcb
            split at h
            · cases h
            · rename_i settled bet₃ hsr
              split at h
              · injection h with h2
                subst h2
                refine ⟨?_, ?_, ?_⟩
                · apply applyActions_bound _ _ t rfl (hgood.2.2.2.1 st.strat _ t)
                  exact hq
                · exact (applyActions_preserves _ _).2.2.1
                · exact applyActions_popped _ _
              · injection h with h2
                subst h2
                refine ⟨?_, ?_, ?_⟩
                · intro e he
                  refine applyActions_bound _ _ t ?_ ?_ ?_ e he
                  · rfl
                  · exact hgood.2.2.2.1 st.strat _ t
                  · intro e2 he2
                    dsimp only at he2
                    rcases mem_enqueue he2 with h1 | h2b
                    · rw [h1]
                      dsimp only [eventTime]
                      exact le_refl t
                    · exact hq e2 h2b
                · exact (applyActions_preserves _ _).2.2.1
                · exact applyActions_popped _ _
  | result rid2 sa =>
      unfold handleEvent handleResult at h
      dsimp only at h
      rw [max_eq_right hct] at h
      injection h with h2
      subst h2
      refine ⟨?_, ?_, ?_⟩
      · apply applyActions_bound _ _ t rfl (hgood.2.2.2.2 st.strat rid2 t)
        exact hq
      · exact (applyActions_preserves _ _).2.2.1
      · exact applyActions_popped _ _

/-- One engine dispatch of a never-back-dating strategy preserves the
monotonicity invariant. -/
theorem engineStep_mono {σ : Type} {strat : Strategy σ} (hgood : GoodStrategy strat)
    {st st₂ : EngineState σ} (h : engineStep strat st = .ok (some st₂))
    (hinv : MonoInv st) : MonoInv st₂ := by
  obtain ⟨hq, hch, hple⟩ := hinv
  unfold engineStep at h
  rcases popMin_spec st.queue.entries with hnil | ⟨m, r, hpop, hperm, hmin⟩
  · rw [hnil] at h
    dsimp only [popMin] at h
    cases h
  · rw [hpop] at h
    dsimp only at h
    split at h
    · cases h
    · rename_i st3 heq
      injection h with h2
      injection h2 with h3
      subst h3
      have hm_mem : m ∈ st.queue.entries := hperm.mem_iff.mpr (List.mem_cons_self _ _)
      have hct : st.clock ≤ m.1 := hq m hm_mem
      have hr_bound : ∀ e ∈ r, m.1 ≤ e.1 := by
        intro e he
        have hel : e ∈ st.queue.entries :=
          hperm.mem_iff.mpr (List.mem_cons_of_mem _ he)
        have hke := hmin e hel
        obtain ⟨mt, mo, me⟩ := m
        obtain ⟨et, eo, ee⟩ := e
        rcases keyLe_mk.mp hke with h1 | ⟨h1, _⟩
        · exact le_of_lt h1
        · exact le_of_eq h1
      obtain ⟨hb, hcl, hpo⟩ := handleEvent_mono hgood heq hct hr_bound
      refine ⟨?_, ?_, ?_⟩
      · intro e he
        rw [hcl]
        exact hb e he
      · rw [hpo]
        dsimp only
        rw [List.map_append]
        apply chain_le_append_singleton hch
        intro y hy
        obtain ⟨p, hp, hpy⟩ := List.mem_map.mp hy
        rw [← hpy]
        exact le_trans (hple p hp) hct
      · intro p hp
        rw [hpo] at hp
        dsimp only at hp
        rw [hcl]
        rcases List.mem_append.mp hp with h1 | h2b
        · exact le_trans (hple p h1) hct
        · have hpm : p = (m.1, m.2.2) := by simpa using h2b
          rw [hpm]

/-- Any number of engine dispatches of a never-back-dating strategy
preserves the monotonicity invariant. -/
theorem engineSteps_mono {σ : Type} {strat : Strategy σ} (hgood : GoodStrategy strat) :
    ∀ {n : Nat} {st st₂ : EngineState σ},
      engineSteps strat n st = .ok st₂ → MonoInv st → MonoInv st₂ := by
  intro n
  induction n with
  | zero =>
      intro st st₂ h hinv
      unfold engineSteps at h
      injection h with h2
      subst h2
      exact hinv
  | succ n ih =>
      intro st st₂ h hinv
      unfold engineSteps at h
      cases hs : engineStep strat st with
      | error e =>
          rw [hs] at h
          cases h
      | ok o =>
          rw [hs] at h
          cases o with
          | none =>
              dsimp only at h
              injection h with h2
              subst h2
              exact hinv
          | some st3 =>
              dsimp only at h
              exact ih h (engineStep_mono hgood hs hinv)

/-- Clamping below by `now` lands at or after `now`. -/
theorem le_clamp (now x : Time) : now ≤ if x < now then now else x := by
  split
  · exact le_refl now
  · rename_i hlt
    exact le_of_not_lt hlt

/-- Race seeding only enqueues data events at or after `now`. -/
theorem seedRace_bound {σ : Type} (now : Time) (st : EngineState σ) (race : Race)
    (hq : ∀ e ∈ st.queue.entries, now ≤ e.1) :
    ∀ e ∈ (seedRace now st race).queue.entries, now ≤ e.1 := by
  unfold seedRace
  dsimp only
  split
  · intro e he
    dsimp only at he
    rcases mem_enqueue he with h1 | h2
    · rw [h1]
      dsimp only [eventTime]
      exact le_clamp now _
    · exact hq e h2
  · intro e he
    dsimp only at he
    rcases mem_enqueue he with h1 | h2
    · rw [h1]
      dsimp only [eventTime]
      exact le_clamp now _
    · rcases mem_enqueue h2 with h1b | h2b
      · rw [h1b]
        dsimp only [eventTime]
        exact le_clamp now _
      · exact hq e h2b

/-- Seeding every race only enqueues data events at or after `now`. -/
theorem foldl_seedRace_bound {σ : Type} (now : Time) :
    ∀ (races : List Race) (st : EngineState σ),
      (∀ e ∈ st.queue.entries, now ≤ e.1) →
      ∀ e ∈ (races.foldl (seedRace now) st).queue.entries, now ≤ e.1 := by
  intro races
  induction races with
  | nil => intro st hq; exact hq
  | cons r rest ih =>
      intro st hq
      rw [List.foldl_cons]
      exact ih (seedRace now st r) (seedRace_bound now st r hq)

/-- The run seeding of a never-back-dating strategy establishes the
monotonicity invariant. -/
theorem initRun_mono {σ : Type} {strat : Strategy σ} (hgood : GoodStrategy strat)
    {s0 : σ} {d : SimDataRepo} {bankroll : Money} {scheds : List (Nat × SchedMode)}
    {tick now0 : Time} {st : EngineState σ}
    (h : initRun strat s0 d bankroll scheds tick now0 = .ok st) : MonoInv st := by
  unfold initRun at h
  dsimp only at h
  split at h
  · cases h
  · injection h with h2
    subst h2
    refine ⟨?_, ?_, ?_⟩
    · intro e he
      dsimp only at he ⊢
      rw [(foldl_seedRace_skeleton _ _ _).2.1]
      rcases mem_enqueue he with h1 | h2b
      · rw [h1]
        dsimp only [eventTime]
        rw [(foldl_seedRace_skeleton _ _ _).2.1]
      · refine foldl_seedRace_bound _ _ _ ?_ e h2b
        intro e2 he2
        dsimp only at he2 ⊢
        rw [(applyActions_preserves _ _).2.2.1]
        refine applyActions_bound _ _ _ ?_ ?_ ?_ e2 he2
        · rfl
        · exact hgood.1 _ _
        · intro e3 he3
          exact absurd he3 (List.not_mem_nil e3)
    · dsimp only
      rw [(foldl_seedRace_skeleton _ _ _).2.2]
      dsimp only
      rw [applyActions_popped]
      exact List.chain'_nil
    · intro p hp
      dsimp only at hp
      rw [(foldl_seedRace_skeleton _ _ _).2.2] at hp
      dsimp only at hp
      rw [applyActions_popped] at hp
      exact absurd hp (List.not_mem_nil p)

/-- C7 amended: in every run of a strategy that never back-dates a bet
(every explicit `placed_at` is at or after the hook clock), the popped
timestamps are non-decreasing — each popped timestamp is at least the
previous one — every popped timestamp is bounded by the clock, and every
still-queued entry lies at or after every popped timestamp.  The original
claim fails precisely because `BaseStrategy.place_bet` accepts an
arbitrary explicit `placed_at`, which this hypothesis excludes. -/
theorem c7_amended_monotone_without_backdating {σ : Type} (strat : Strategy σ)
    (hgood : GoodStrategy strat) (s0 : σ) (d : SimDataRepo) (bankroll : Money)
    (scheds : List (Nat × SchedMode)) (tick now0 : Time) (n : Nat)
    (st : EngineState σ)
    (h : (initRun strat s0 d bankroll scheds tick now0).bind (engineSteps strat n) =
      .ok st) :
    List.Chain' (fun a b => a ≤ b) (st.popped.map (fun p => p.1)) ∧
    (∀ p ∈ st.popped, p.1 ≤ st.clock) ∧
    (∀ p ∈ st.popped, ∀ e ∈ st.queue.entries, p.1 ≤ e.1) := by
  cases hi : initRun strat s0 d bankroll scheds tick now0 with
  | error e =>
      rw [hi] at h
      simp only [Except.bind] at h
      cases h
  | ok st1 =>
      rw [hi] at h
      simp only [Except.bind] at h
      obtain ⟨m1, m2, m3⟩ := engineSteps_mono hgood h (initRun_mono hgood hi)
      exact ⟨m2, m3, fun p hp e he => le_trans (m3 p hp) (m1 e he)⟩

set_option maxRecDepth 100000 in
attribute [local semireducible] Rat.add Rat.mul Rat.sub Rat.inv in
/-- Witness for C7: the null strategy never back-dates, and its S6 run
pops events in chronological order after five dispatches. -/
theorem c7_witness :
    List.Chain' (fun a b => a ≤ b) ((nullRun 5).popped.map (fun p => p.1)) ∧
    (∀ p ∈ (nullRun 5).popped, p.1 ≤ (nullRun 5).clock) ∧
    (∀ p ∈ (nullRun 5).popped, ∀ e ∈ (nullRun 5).queue.entries, p.1 ≤ e.1) :=
  c7_amended_monotone_without_backdating nullStrategy
    ⟨fun _ _ a ha => absurd ha (List.not_mem_nil a),
     fun _ _ a ha => absurd ha (List.not_mem_nil a),
     fun _ _ _ _ _ a ha => absurd ha (List.not_mem_nil a),
     fun _ _ _ a ha => absurd ha (List.not_mem_nil a),
     fun _ _ _ a ha => absurd ha (List.not_mem_nil a)⟩
    () s6Repo 1000 [] 1 0 5 (nullRun 5) (by rfl)

end Xihr
